import Mathlib

/-!
# Verification of the familybot text-to-ledger parsing and settlement engine

This file gives a shallow embedding, in Lean 4, of the two agent variants of
the familybot repository:

* `Familybot` models `familybot.py` (identical, for the parts modelled here,
  to `familybot__init__.py`): the regex-driven parser, the pairwise `Ledger`,
  `Ledger.totals`, and `FamilyFinanceAgent.analyze`.
* `InitBot` models `__init__.py` (the net-balance variant): `_fallback_parse`,
  `_extract_number`, `_parse_owes_line`, `_parse_loan_line`, the greedy
  two-pointer `_compute_settlements`, and `analyze`.

Python floats are modelled as exact rationals (`ℚ`); Python's `round(x, 2)`
(round-half-to-even) is modelled by `round2`.  Python strings are modelled as
`List Char`; `str.lower`/`str.title` are modelled for ASCII cased letters
(Arabic letters are uncased in Python, so this matches Python on the
ASCII+Arabic inputs the program deals with).  Code that can raise a Python
exception (`float(...)` on a malformed numeral) is modelled in `Except Unit`.
-/

deriving instance DecidableEq for Except

/-! ## Character and string utilities -/

/-- ASCII lower-casing of a character, exactly Python's `str.lower` on ASCII.  -/
def lowerChar (c : Char) : Char :=
  if 65 ≤ c.toNat ∧ c.toNat ≤ 90 then Char.ofNat (c.toNat + 32) else c

/-- ASCII upper-casing of a character. -/
def upperChar (c : Char) : Char :=
  if 97 ≤ c.toNat ∧ c.toNat ≤ 122 then Char.ofNat (c.toNat - 32) else c

/-- An ASCII letter (a "cased" character for `str.title` purposes;
Arabic letters are uncased in Python, hence behave like non-letters there). -/
def isAsciiLetter (c : Char) : Bool :=
  decide ((65 ≤ c.toNat ∧ c.toNat ≤ 90) ∨ (97 ≤ c.toNat ∧ c.toNat ≤ 122))

/-- Python whitespace for `str.split`/`str.strip`/`\s`:
space, tab, newline, carriage return, vertical tab, form feed. -/
def isSpaceCh (c : Char) : Bool :=
  decide (c = ' ' ∨ c = '\t' ∨ c = '\n' ∨ c = '\r' ∨ c.toNat = 11 ∨ c.toNat = 12)

/-- Decimal value of an ASCII digit, an Arabic-Indic digit (U+0660–U+0669) or
an Eastern Arabic-Indic digit (U+06F0–U+06F9); these are exactly the digit
characters accepted by the `AMOUNT_PATTERN` regex, and they are decimal digits
for Python's `str.isdigit` and `float`. -/
def digitVal? (c : Char) : Option ℕ :=
  if 48 ≤ c.toNat ∧ c.toNat ≤ 57 then some (c.toNat - 48)
  else if 1632 ≤ c.toNat ∧ c.toNat ≤ 1641 then some (c.toNat - 1632)
  else if 1776 ≤ c.toNat ∧ c.toNat ≤ 1785 then some (c.toNat - 1776)
  else none

def isPyDigit (c : Char) : Bool := (digitVal? c).isSome

/-- The characters of a string. -/
def strL (s : String) : List Char := s.data

/-- Does `hay` start with `pat`? -/
def startsWithL : List Char → List Char → Bool
  | [], _ => true
  | _ :: _, [] => false
  | a :: as, b :: bs => a == b && startsWithL as bs

/-- Python's substring test `pat in hay`. -/
def containsSub (pat : List Char) : List Char → Bool
  | [] => startsWithL pat []
  | c :: cs => startsWithL pat (c :: cs) || containsSub pat cs

/-- Case-insensitive prefix test (ASCII case folding, as Python's
`re.IGNORECASE` on ASCII patterns). -/
def startsWithCI : List Char → List Char → Bool
  | [], _ => true
  | _ :: _, [] => false
  | a :: as, b :: bs => lowerChar a == lowerChar b && startsWithCI as bs

def lowerL (l : List Char) : List Char := l.map lowerChar

/-- Python's `str.split()` (split on whitespace runs, dropping empty parts). -/
def splitWsAux : List Char → List Char → List (List Char)
  | acc, [] => if acc.isEmpty then [] else [acc.reverse]
  | acc, c :: cs =>
    if isSpaceCh c then
      if acc.isEmpty then splitWsAux [] cs else acc.reverse :: splitWsAux [] cs
    else splitWsAux (c :: acc) cs

def splitWs (l : List Char) : List (List Char) := splitWsAux [] l

/-- Python's `str.strip()`. -/
def stripWs (l : List Char) : List Char :=
  ((l.dropWhile isSpaceCh).reverse.dropWhile isSpaceCh).reverse

/-- `re.sub(r"\s+", " ", ·)`: collapse each whitespace run to a single space. -/
def collapseWs : List Char → List Char
  | [] => []
  | [c] => [if isSpaceCh c then ' ' else c]
  | c1 :: c2 :: cs =>
    if isSpaceCh c1 ∧ isSpaceCh c2 then collapseWs (c2 :: cs)
    else (if isSpaceCh c1 then ' ' else c1) :: collapseWs (c2 :: cs)

/-- Python's `str.title()` on ASCII-cased text: a cased letter is upper-cased
when the previous character is uncased, lower-cased otherwise.  (Arabic
letters are uncased in Python, so they pass through and reset the flag the
same way this model does.) -/
def titleAux : Bool → List Char → List Char
  | _, [] => []
  | prevCased, c :: cs =>
    (if isAsciiLetter c then (if prevCased then lowerChar c else upperChar c) else c)
      :: titleAux (isAsciiLetter c) cs

def pyTitle (l : List Char) : List Char := titleAux false l

/-- Python dict key order: first occurrences, in order. -/
def dedupFirst : List String → List String
  | [] => []
  | x :: xs => x :: (dedupFirst xs).filter (fun y => y != x)

/-- Association-list lookup (Python dict `get`). -/
def alookup {β : Type} (k : String) : List (String × β) → Option β
  | [] => none
  | (k', v) :: t => if k' = k then some v else alookup k t

/-- Association-list assignment (Python dict `d[k] = v`): replace in place,
or append at the end when the key is new — exactly the insertion-order
semantics of a Python dict. -/
def aset {β : Type} (k : String) (v : β) : List (String × β) → List (String × β)
  | [] => [(k, v)]
  | (k', v') :: t => if k' = k then (k', v) :: t else (k', v') :: aset k v t

/-- Split a text at each '\n' (keeping empty pieces).  Python's
`str.splitlines` also splits at `\r`-style terminators and drops a trailing
empty piece; since the callers `strip` every piece (removing a trailing
`'\r'`) and drop blank pieces, this model agrees with Python on
`\n`/`\r\n`-terminated texts. -/
def splitNl : List Char → List (List Char)
  | [] => [[]]
  | c :: cs =>
    match splitNl cs with
    | [] => [[]]
    | l :: ls => if c = '\n' then [] :: l :: ls else (c :: l) :: ls

/-- The trimmed non-blank lines of the input text. -/
def linesOf (text : String) : List (List Char) :=
  ((splitNl (strL text)).map stripWs).filter (fun l => !l.isEmpty)

/-! ## A kernel-reducible layer for exact rational arithmetic

The arithmetic of `ℚ` itself normalizes through `Nat.gcd`, which is defined
by well-founded recursion and therefore does not reduce inside the kernel;
so the model performs its arithmetic through the following wrappers, which
build each rational with a fuel-based gcd and are proved equal to the
standard operations. -/

/-- Fuel-based Euclidean gcd (the fuel bounds the first argument). -/
def ngcdAux : ℕ → ℕ → ℕ → ℕ
  | 0, _, n => n
  | _ + 1, 0, n => n
  | f + 1, m + 1, n => ngcdAux f (n % (m + 1)) (m + 1)

def ngcd (m n : ℕ) : ℕ := ngcdAux (m + 1) m n

theorem ngcdAux_eq : ∀ f m n, m < f → ngcdAux f m n = Nat.gcd m n := by
  intro f
  induction f with
  | zero => intro m n h; omega
  | succ f ih =>
    intro m n h
    match m with
    | 0 => simp [ngcdAux]
    | m + 1 =>
      have hlt : n % (m + 1) < f := lt_of_lt_of_le (Nat.mod_lt _ (Nat.succ_pos m)) (by omega)
      rw [ngcdAux, ih _ _ hlt]
      exact (Nat.gcd_rec _ _).symm

theorem ngcd_gcd (m n : ℕ) : ngcd m n = Nat.gcd m n :=
  ngcdAux_eq _ _ _ (Nat.lt_succ_self m)

/-- Build the rational `n / d` without invoking `Nat.gcd`
(`qmk n 0 = 0`, matching Lean's division by zero; the Python code never
divides by zero on the modelled paths). -/
def qmk (n : ℤ) (d : ℕ) : ℚ :=
  if hd : d = 0 then 0
  else
    Rat.mk' (n / (ngcd n.natAbs d : ℤ)) (d / ngcd n.natAbs d)
      (by
        rw [ngcd_gcd]
        have hpos : 0 < Nat.gcd n.natAbs d :=
          Nat.gcd_pos_of_pos_right _ (Nat.pos_of_ne_zero hd)
        have hle : Nat.gcd n.natAbs d ≤ d :=
          Nat.le_of_dvd (Nat.pos_of_ne_zero hd) (Nat.gcd_dvd_right _ _)
        have := Nat.div_pos hle hpos
        omega)
      (by
        rw [ngcd_gcd]
        have hpos : 0 < Nat.gcd n.natAbs d :=
          Nat.gcd_pos_of_pos_right _ (Nat.pos_of_ne_zero hd)
        have hdvd : ((Nat.gcd n.natAbs d : ℕ) : ℤ) ∣ n :=
          Int.dvd_natAbs.mp (Int.natCast_dvd_natCast.mpr (Nat.gcd_dvd_left _ _))
        rw [Int.natAbs_ediv _ _ hdvd, Int.natAbs_ofNat]
        exact Nat.coprime_div_gcd_div_gcd hpos)

theorem qmk_eq (n : ℤ) (d : ℕ) : qmk n d = (n : ℚ) / (d : ℚ) := by
  unfold qmk
  split
  · rename_i hd
    subst hd
    simp
  · rename_i hd
    rw [Rat.mk'_eq_divInt, ngcd_gcd]
    have hpos : 0 < Nat.gcd n.natAbs d :=
      Nat.gcd_pos_of_pos_right _ (Nat.pos_of_ne_zero hd)
    have hgz : ((Nat.gcd n.natAbs d : ℕ) : ℤ) ≠ 0 := by
      rw [Int.natCast_ne_zero]; omega
    have hdvdn : ((Nat.gcd n.natAbs d : ℕ) : ℤ) ∣ n :=
      Int.dvd_natAbs.mp (Int.natCast_dvd_natCast.mpr (Nat.gcd_dvd_left _ _))
    have hdvdd : Nat.gcd n.natAbs d ∣ d := Nat.gcd_dvd_right _ _
    have h1 : (n / (Nat.gcd n.natAbs d : ℤ)) * (Nat.gcd n.natAbs d : ℤ) = n :=
      Int.ediv_mul_cancel hdvdn
    have h2 : ((d / Nat.gcd n.natAbs d : ℕ) : ℤ) * ((Nat.gcd n.natAbs d : ℕ) : ℤ) = (d : ℤ) := by
      rw [← Nat.cast_mul, Nat.div_mul_cancel hdvdd]
    calc Rat.divInt (n / (Nat.gcd n.natAbs d : ℤ)) ((d / Nat.gcd n.natAbs d : ℕ) : ℤ)
        = Rat.divInt ((n / (Nat.gcd n.natAbs d : ℤ)) * (Nat.gcd n.natAbs d : ℤ))
            (((d / Nat.gcd n.natAbs d : ℕ) : ℤ) * (Nat.gcd n.natAbs d : ℤ)) :=
          (Rat.divInt_mul_right hgz).symm
      _ = Rat.divInt n (d : ℤ) := by rw [h1, h2]
      _ = (n : ℚ) / ((d : ℤ) : ℚ) := Rat.divInt_eq_div n (d : ℤ)
      _ = (n : ℚ) / (d : ℚ) := by norm_num

/-- Reducible addition on `ℚ`. -/
def qadd (a b : ℚ) : ℚ := qmk (a.num * b.den + b.num * a.den) (a.den * b.den)

/-- Reducible subtraction on `ℚ`. -/
def qsub (a b : ℚ) : ℚ := qmk (a.num * b.den - b.num * a.den) (a.den * b.den)

/-- Reducible `a * n`. -/
def qmulNat (a : ℚ) (n : ℕ) : ℚ := qmk (a.num * n) a.den

/-- Reducible `a / n`. -/
def qdivNat (a : ℚ) (n : ℕ) : ℚ := qmk a.num (a.den * n)

/-- Reducible `sum`, Python's left-to-right `sum(...)`. -/
def qsum (l : List ℚ) : ℚ := l.foldl qadd 0

theorem num_eq_mul_den (a : ℚ) : ((a.num : ℚ)) = a * (a.den : ℚ) :=
  (div_eq_iff (by exact_mod_cast a.den_nz)).mp (Rat.num_div_den a)

theorem qadd_eq (a b : ℚ) : qadd a b = a + b := by
  rw [qadd, qmk_eq]
  have hda : ((a.den : ℚ)) ≠ 0 := by exact_mod_cast a.den_nz
  have hdb : ((b.den : ℚ)) ≠ 0 := by exact_mod_cast b.den_nz
  have ha := num_eq_mul_den a
  have hb := num_eq_mul_den b
  push_cast
  rw [div_eq_iff (by positivity : ((a.den : ℚ)) * (b.den : ℚ) ≠ 0), ha, hb]
  ring

theorem qsub_eq (a b : ℚ) : qsub a b = a - b := by
  rw [qsub, qmk_eq]
  have hda : ((a.den : ℚ)) ≠ 0 := by exact_mod_cast a.den_nz
  have hdb : ((b.den : ℚ)) ≠ 0 := by exact_mod_cast b.den_nz
  have ha := num_eq_mul_den a
  have hb := num_eq_mul_den b
  push_cast
  rw [div_eq_iff (by positivity : ((a.den : ℚ)) * (b.den : ℚ) ≠ 0), ha, hb]
  ring

theorem qmulNat_eq (a : ℚ) (n : ℕ) : qmulNat a n = a * n := by
  rw [qmulNat, qmk_eq]
  have hda : ((a.den : ℚ)) ≠ 0 := by exact_mod_cast a.den_nz
  have ha := num_eq_mul_den a
  push_cast
  rw [div_eq_iff hda, ha]
  ring

theorem qdivNat_eq (a : ℚ) (n : ℕ) : qdivNat a n = a / n := by
  rw [qdivNat, qmk_eq]
  rcases Nat.eq_zero_or_pos n with h | h
  · subst h; push_cast; simp
  · have hda : ((a.den : ℚ)) ≠ 0 := by exact_mod_cast a.den_nz
    have hn : ((n : ℚ)) ≠ 0 := by positivity
    have ha := num_eq_mul_den a
    push_cast
    rw [div_eq_div_iff (by positivity) (by positivity), ha]
    ring

theorem qsum_eq (l : List ℚ) : qsum l = l.sum := by
  have key : ∀ (l : List ℚ) (acc : ℚ), l.foldl qadd acc = acc + l.sum := by
    intro l
    induction l with
    | nil => intro acc; simp
    | cons x xs ih =>
      intro acc
      rw [List.foldl_cons, ih, qadd_eq, List.sum_cons]
      ring
  rw [qsum, key, zero_add]

/-- The 0.01 threshold used throughout the settlement code, built reducibly. -/
def q001 : ℚ := qmk 1 100

theorem q001_eq : q001 = 1/100 := by rw [q001, qmk_eq]; norm_num

/-! ## Python `round(x, 2)` on exact rationals -/

/-- Round half to even, Python's `round` on an exactly-representable value,
written over the numerator and denominator so that it reduces in the kernel:
`x.num / x.den` is `⌊x⌋` and `2 * (x.num % x.den) ⋚ x.den` compares the
fractional part with `1/2`. -/
def rhe (x : ℚ) : ℤ :=
  if 2 * (x.num % (x.den : ℤ)) < (x.den : ℤ) then x.num / (x.den : ℤ)
  else if (x.den : ℤ) < 2 * (x.num % (x.den : ℤ)) then x.num / (x.den : ℤ) + 1
  else if (x.num / (x.den : ℤ)) % 2 = 0 then x.num / (x.den : ℤ) else x.num / (x.den : ℤ) + 1

/-- Python's `round(x, 2)`. -/
def round2 (x : ℚ) : ℚ := qmk (rhe (qmulNat x 100)) 100

theorem round2_eq (x : ℚ) : round2 x = (rhe (100 * x) : ℚ) / 100 := by
  rw [round2, qmk_eq, qmulNat_eq]
  norm_num [mul_comm]

/-- The decomposition `x = ⌊x⌋ + r/den` with `0 ≤ r < den` used to reason
about `rhe`. -/
theorem rhe_cases (x : ℚ) :
    x = ((x.num / (x.den : ℤ) : ℤ) : ℚ) + ((x.num % (x.den : ℤ) : ℤ) : ℚ) / (x.den : ℚ) ∧
    (0 : ℚ) ≤ ((x.num % (x.den : ℤ) : ℤ) : ℚ) ∧
    ((x.num % (x.den : ℤ) : ℤ) : ℚ) < (x.den : ℚ) ∧ (0 : ℚ) < (x.den : ℚ) := by
  have hd0 : (0 : ℤ) < (x.den : ℤ) := by exact_mod_cast x.pos
  have hdq : (0 : ℚ) < (x.den : ℚ) := by exact_mod_cast hd0
  have hsplit : (x.den : ℤ) * (x.num / (x.den : ℤ)) + x.num % (x.den : ℤ) = x.num :=
    Int.ediv_add_emod _ _
  refine ⟨?_, ?_, ?_, hdq⟩
  · have hnum := num_eq_mul_den x
    have hcast : ((x.den : ℚ)) * ((x.num / (x.den : ℤ) : ℤ) : ℚ)
        + ((x.num % (x.den : ℤ) : ℤ) : ℚ) = ((x.num : ℚ)) := by
      exact_mod_cast congrArg (fun z : ℤ => (z : ℚ)) hsplit
    have hfrac : ((x.num % (x.den : ℤ) : ℤ) : ℚ) / (x.den : ℚ)
        = x - ((x.num / (x.den : ℤ) : ℤ) : ℚ) := by
      rw [div_eq_iff (ne_of_gt hdq), sub_mul, ← hnum]
      linear_combination hcast
    linarith [hfrac]
  · exact_mod_cast Int.emod_nonneg _ (ne_of_gt hd0)
  · exact_mod_cast Int.emod_lt_of_pos _ hd0

theorem rhe_le (x : ℚ) : (rhe x : ℚ) ≤ x + 1/2 := by
  obtain ⟨hx, hr0, hrlt, hd0⟩ := rhe_cases x
  unfold rhe
  have hdivpos : (0 : ℚ) ≤ ((x.num % (x.den : ℤ) : ℤ) : ℚ) / (x.den : ℚ) :=
    div_nonneg hr0 (le_of_lt hd0)
  split
  · linarith
  · rename_i hcond
    split
    · rename_i hcond2
      have hq : (x.den : ℚ) < 2 * ((x.num % (x.den : ℤ) : ℤ) : ℚ) := by exact_mod_cast hcond2
      have hhalf : 1/2 ≤ ((x.num % (x.den : ℤ) : ℤ) : ℚ) / (x.den : ℚ) := by
        rw [le_div_iff₀ hd0]; linarith
      push_cast
      linarith
    · rename_i hcond2
      have hqz : 2 * (x.num % (x.den : ℤ)) = (x.den : ℤ) := by omega
      have hq : 2 * ((x.num % (x.den : ℤ) : ℤ) : ℚ) = ((x.den : ℚ)) := by exact_mod_cast hqz
      have hhalf : ((x.num % (x.den : ℤ) : ℤ) : ℚ) / (x.den : ℚ) = 1/2 := by
        rw [div_eq_iff (ne_of_gt hd0)]; linarith
      split
      · linarith
      · push_cast
        linarith

theorem le_rhe (x : ℚ) : x - 1/2 ≤ (rhe x : ℚ) := by
  obtain ⟨hx, hr0, hrlt, hd0⟩ := rhe_cases x
  unfold rhe
  split
  · rename_i hcond
    have hq : 2 * ((x.num % (x.den : ℤ) : ℤ) : ℚ) < (x.den : ℚ) := by exact_mod_cast hcond
    have hhalf : ((x.num % (x.den : ℤ) : ℤ) : ℚ) / (x.den : ℚ) ≤ 1/2 := by
      rw [div_le_iff₀ hd0]; linarith
    linarith
  · rename_i hcond
    have hdiv1 : ((x.num % (x.den : ℤ) : ℤ) : ℚ) / (x.den : ℚ) < 1 := by
      rw [div_lt_one hd0]; linarith
    split
    · push_cast
      linarith
    · rename_i hcond2
      have hqz : 2 * (x.num % (x.den : ℤ)) = (x.den : ℤ) := by omega
      have hq : 2 * ((x.num % (x.den : ℤ) : ℤ) : ℚ) = ((x.den : ℚ)) := by exact_mod_cast hqz
      have hhalf : ((x.num % (x.den : ℤ) : ℤ) : ℚ) / (x.den : ℚ) = 1/2 := by
        rw [div_eq_iff (ne_of_gt hd0)]; linarith
      split
      · linarith
      · push_cast
        linarith

theorem abs_round2_sub_le (x : ℚ) : |round2 x - x| ≤ 1/200 := by
  have h1 := rhe_le (100 * x)
  have h2 := le_rhe (100 * x)
  have h : round2 x - x = ((rhe (100 * x) : ℚ) - 100 * x) / 100 := by
    rw [round2_eq]; ring
  rw [h, abs_le]
  constructor
  · rw [le_div_iff₀ (by norm_num : (0:ℚ) < 100)]; linarith
  · rw [div_le_iff₀ (by norm_num : (0:ℚ) < 100)]; linarith

theorem round2_le (x : ℚ) : round2 x ≤ x + 1/200 := by
  have := abs_round2_sub_le x
  rw [abs_le] at this
  linarith [this.2]

theorem le_round2 (x : ℚ) : x - 1/200 ≤ round2 x := by
  have := abs_round2_sub_le x
  rw [abs_le] at this
  linarith [this.1]

/-- `round2` lands on the 2-decimal grid. -/
def isGrid (x : ℚ) : Prop := ∃ k : ℤ, x = (k : ℚ) / 100

theorem isGrid_round2 (x : ℚ) : isGrid (round2 x) := ⟨rhe (100 * x), round2_eq x⟩

theorem isGrid_zero : isGrid 0 := ⟨0, by norm_num⟩

theorem isGrid_add {x y : ℚ} (hx : isGrid x) (hy : isGrid y) : isGrid (x + y) := by
  obtain ⟨a, ha⟩ := hx; obtain ⟨b, hb⟩ := hy
  exact ⟨a + b, by rw [ha, hb]; push_cast; ring⟩

theorem isGrid_sub {x y : ℚ} (hx : isGrid x) (hy : isGrid y) : isGrid (x - y) := by
  obtain ⟨a, ha⟩ := hx; obtain ⟨b, hb⟩ := hy
  exact ⟨a - b, by rw [ha, hb]; push_cast; ring⟩

/-- A grid value of absolute value at most 0.015 is at most 0.01 in absolute
value. -/
theorem isGrid_abs_le {d : ℚ} (hg : isGrid d) (h : |d| ≤ 3/200) : |d| ≤ 1/100 := by
  obtain ⟨k, hk⟩ := hg
  subst hk
  rw [abs_div, (by norm_num : |(100 : ℚ)| = 100)] at h ⊢
  have habs : |(k : ℚ)| ≤ 3/2 := by linarith
  have hcast : |(k : ℚ)| = ((|k| : ℤ) : ℚ) := Int.cast_abs.symm
  have hklt : |k| < 2 := by
    have : ((|k| : ℤ) : ℚ) < 2 := by rw [← hcast]; linarith
    exact_mod_cast this
  have hk1 : ((|k| : ℤ) : ℚ) ≤ 1 := by
    have : |k| ≤ 1 := by omega
    exact_mod_cast this
  rw [hcast]
  linarith

/-! ## Python `float` on numeric tokens -/

/-- Numeric value of a digit list read in base 10. -/
def digitsVal (l : List Char) : ℕ :=
  l.foldl (fun a c => 10 * a + (digitVal? c).getD 0) 0

/-- Python's `float(s)` restricted to the token shapes produced by the
extractors (digits of the three supported scripts and `'.'`): the conversion
succeeds iff the token consists of digits and at most one decimal point and
contains at least one digit; otherwise Python raises `ValueError`, modelled
as `none`.  (The extractors never produce signs, exponents or `inf`/`nan`
spellings, so those branches of `float` are not modelled.) -/
def pyFloatDD (l : List Char) : Option ℚ :=
  if l.any (fun c => !(isPyDigit c || c == '.')) then none
  else if 2 ≤ (l.filter (fun c => c == '.')).length then none
  else if !(l.any isPyDigit) then none
  else
    let ip := l.takeWhile (fun c => c != '.')
    let fp := (l.dropWhile (fun c => c != '.')).drop 1
    some (qmk ((digitsVal ip : ℤ) * (10 : ℤ) ^ fp.length + (digitsVal fp : ℤ)) (10 ^ fp.length))

namespace Familybot

/-! ## Model of `familybot.py` -/

def DEFAULT_CURRENCY : String := "AED"

/-- `AED_INDICATORS` from `familybot.py`. -/
def AED_INDICATORS : List (List Char) :=
  [strL "aed", strL "dh", strL "dirham", strL "dirhams",
   strL "درهم", strL "درهماً", strL "درهم إماراتي"]

/-- `_normalize_name`: strip, collapse inner whitespace, title-case. -/
def normalize_name (l : List Char) : String :=
  String.mk (pyTitle (collapseWs (stripWs l)))

/-- `_normalize_number`: transliterate Arabic-Indic digits to ASCII and strip
the thousands separators `','` and `'٬'`. -/
def normalize_number (l : List Char) : List Char :=
  (l.filter (fun c => !(c == ',' || c == '٬'))).map
    (fun c => match digitVal? c with
      | some d => Char.ofNat (48 + d)
      | none => c)

/-- A character allowed after the leading digit of the `amount` group of
`AMOUNT_PATTERN` (`[0-9٠-٩۰-۹.,٬]`). -/
def isRunChar (c : Char) : Bool := isPyDigit c || c == '.' || c == ',' || c == '٬'

/-- The `amount` group of the first `AMOUNT_PATTERN` match in a text: the
maximal run of amount characters starting at the leftmost digit.  (The
optional currency prefix and `\s*` of the pattern contain no digits, so the
leftmost regex match captures exactly this run.) -/
def firstRun : List Char → Option (List Char)
  | [] => none
  | c :: cs => if isPyDigit c then some (c :: cs.takeWhile isRunChar) else firstRun cs

/-- `_extract_amount`: `None` when the pattern does not match; a Python
`ValueError` from `float` (malformed numeral such as `"1.."`) is `.error`. -/
def extract_amount (l : List Char) : Except Unit (Option ℚ) :=
  match firstRun l with
  | none => .ok none
  | some run =>
    match pyFloatDD (normalize_number run) with
    | some v => .ok (some v)
    | none => .error ()

/-- The currency alternatives of `AMOUNT_PATTERN`, in pattern order. -/
def currencyTokens : List (List Char) :=
  [strL "$", strL "€", strL "USD", strL "EUR", strL "AED", strL "Dh",
   strL "Dirham", strL "Dirhams", strL "درهم", strL "درهماً", strL "درهم إماراتي"]

/-- `_detect_currency`. -/
def detect_currency (l : List Char) : String :=
  let lo := lowerL l
  if AED_INDICATORS.any (fun t => containsSub t lo) then "AED"
  else if containsSub (strL "$") l || containsSub (strL "usd") lo then "USD"
  else if containsSub (strL "€") l || containsSub (strL "eur") lo then "EUR"
  else DEFAULT_CURRENCY

/-- The `currency` group of the `AMOUNT_PATTERN` match whose amount group
starts right after `prevRev` (the reversed prefix of the line): the matched
currency token, if one ends exactly where the optional whitespace before the
digits begins.  No currency token is a suffix of another, so at most one
token can match and the pattern order is immaterial. -/
def hintEndingAt (prevRev : List Char) : Option (List Char) :=
  let p := prevRev.dropWhile isSpaceCh
  currencyTokens.findSome? (fun t => if startsWithL t.reverse p then some t else none)

/-- All amount runs of a line, paired with the reversed prefix preceding each
run (used to recover the currency group of the corresponding regex match).
This mirrors `AMOUNT_PATTERN.finditer`: matches are non-overlapping and each
amount group is a maximal run starting at a digit. -/
def scanRunsAux : ℕ → List Char → List Char → List (List Char × List Char)
  | 0, _, _ => []
  | _ + 1, _, [] => []
  | f + 1, prevRev, c :: cs =>
    if isPyDigit c then
      let run := c :: cs.takeWhile isRunChar
      (run, prevRev) :: scanRunsAux f (run.reverse ++ prevRev) (cs.dropWhile isRunChar)
    else scanRunsAux f (c :: prevRev) cs

def scanRuns (l : List Char) : List (List Char × List Char) :=
  scanRunsAux l.length [] l

/-- `_extract_amounts_with_currency`, run over the scanned matches;
a malformed numeral raises (`.error`), as `float` does in Python. -/
def amountsOfRuns (line : List Char) : List (List Char × List Char) → Except Unit (List (ℚ × String))
  | [] => .ok []
  | (run, prevRev) :: rest =>
    match pyFloatDD (normalize_number run) with
    | none => .error ()
    | some v =>
      match amountsOfRuns line rest with
      | .error e => .error e
      | .ok tl =>
        .ok ((v, detect_currency ((hintEndingAt prevRev).getD line)) :: tl)

def extract_amounts_with_currency (line : List Char) : Except Unit (List (ℚ × String)) :=
  amountsOfRuns line (scanRuns line)

/-- `_find_members_in_text`: members whose lower-cased name occurs in the
lower-cased text, in roster order. -/
def find_members_in_text (text : List Char) (members : List String) : List String :=
  let lo := lowerL text
  members.filter (fun m => containsSub (lowerL (strL m)) lo)

/-! ### The `Ledger` -/

/-- `Ledger.debts`: `debtor -> creditor -> amount`, insertion-ordered. -/
abbrev LedgerT := List (String × List (String × ℚ))

/-- `Ledger.add_debt`. -/
def add_debt (L : LedgerT) (debtor creditor : String) (amount : ℚ) : LedgerT :=
  if amount ≤ 0 then L
  else
    let inner := (alookup debtor L).getD []
    aset debtor (aset creditor (qadd ((alookup creditor inner).getD 0) amount) inner) L

/-- `Ledger.reduce_debt`. -/
def reduce_debt (L : LedgerT) (debtor creditor : String) (amount : ℚ) : LedgerT :=
  if amount ≤ 0 then L
  else
    match alookup debtor L with
    | none => L
    | some inner =>
      match alookup creditor inner with
      | none => L
      | some v => aset debtor (aset creditor (max (qsub v amount) 0) inner) L

def owesRaw (L : LedgerT) (m : String) : ℚ :=
  qsum (((alookup m L).getD []).map Prod.snd)

def dueRaw (L : LedgerT) (m : String) : ℚ :=
  qsum (L.map (fun p => (alookup m p.2).getD 0))

/-- One member's entry of `Ledger.totals`, plus the `monthly_obligations`
field that `analyze` adds to the same dict afterwards. -/
structure Summ where
  owes : ℚ
  due : ℚ
  net : ℚ
  monthly_obligations : ℚ
deriving DecidableEq, Repr

/-- `Ledger.settle_suggestions`. -/
def settle_suggestions (L : LedgerT) : List (String × String × ℚ) :=
  (L.map (fun p => (p.2.filterMap
    (fun q => if 0 < q.2 then some (p.1, q.1, round2 q.2) else none)))).flatten

/-! ### Line handlers of `FamilyFinanceAgent` (familybot.py) -/

/-- `re.split` on a literal pattern with `re.IGNORECASE`: split at each
non-overlapping, leftmost occurrence.  `fuel` must be at least the length of
the scanned text (each step consumes at least one character when `pat` is
non-empty). -/
def splitCIAux (pat : List Char) : ℕ → List Char → List Char → List (List Char)
  | 0, acc, rest => [acc.reverse ++ rest]
  | _ + 1, acc, [] => [acc.reverse]
  | f + 1, acc, c :: cs =>
    if startsWithCI pat (c :: cs) then
      acc.reverse :: splitCIAux pat f [] ((c :: cs).drop pat.length)
    else splitCIAux pat f (c :: acc) cs

def splitCI (pat l : List Char) : List (List Char) := splitCIAux pat l.length [] l

/-- `_handle_owes`. -/
def handle_owes (fam : List String) (line : List Char) (L : LedgerT) (amount : ℚ) : LedgerT :=
  match splitCI (strL "owes") line with
  | p0 :: p1 :: _ =>
    let debtor := normalize_name p0
    let creditor :=
      match find_members_in_text p1 fam with
      | [] => "Unknown"
      | c :: _ => normalize_name (strL c)
    add_debt L debtor creditor amount
  | _ => L

/-- `_handle_reimbursement`. -/
def handle_reimbursement (fam : List String) (line : List Char) (L : LedgerT) (amount : ℚ) : LedgerT :=
  match splitWs line with
  | [] => L
  | w0 :: _ =>
    let debtor := normalize_name w0
    let creditor :=
      match find_members_in_text line fam with
      | _ :: c :: _ => normalize_name (strL c)
      | _ => "Unknown"
    reduce_debt L debtor creditor amount

/-- Is `c` a regex word character (`\w`)?  ASCII semantics; Python also
counts non-ASCII letters/digits as word characters, which only matters for
lines where a non-ASCII word character is directly adjacent to the word
`for`. -/
def isWordCh (c : Char) : Bool :=
  isAsciiLetter c || decide (48 ≤ c.toNat ∧ c.toNat ≤ 57) || c == '_'

/-- Start positions of `re.finditer(r"\bfor\b", line, re.IGNORECASE)`. -/
def forPositionsAux : ℕ → Option Char → List Char → List ℕ
  | _, _, [] => []
  | i, prev, c :: cs =>
    let hd :=
      startsWithCI (strL "for") (c :: cs) &&
      (match prev with | none => true | some p => !isWordCh p) &&
      (match (c :: cs).drop 3 with | [] => true | d :: _ => !isWordCh d)
    if hd then i :: forPositionsAux (i + 1) (some c) cs
    else forPositionsAux (i + 1) (some c) cs

def forPositions (l : List Char) : List ℕ := forPositionsAux 0 none l

/-- `re.split(r",|and", remainder)`: split at each leftmost occurrence of
`','` or (case-sensitively) `"and"`. -/
def splitCommaAndAux : ℕ → List Char → List Char → List (List Char)
  | 0, acc, rest => [acc.reverse ++ rest]
  | _ + 1, acc, [] => [acc.reverse]
  | f + 1, acc, c :: cs =>
    if c = ',' then acc.reverse :: splitCommaAndAux f [] cs
    else if startsWithL (strL "and") (c :: cs) then
      acc.reverse :: splitCommaAndAux f [] ((c :: cs).drop 3)
    else splitCommaAndAux f (c :: acc) cs

def splitCommaAnd (l : List Char) : List (List Char) := splitCommaAndAux l.length [] l

/-- `_extract_beneficiaries`. -/
def extract_beneficiaries (fam : List String) (line : List Char) : List String :=
  match (forPositions line).getLast? with
  | none => []
  | some p =>
    let remainder := stripWs (line.drop (p + 3))
    let rlo := lowerL remainder
    if containsSub (strL "everyone") rlo || containsSub (strL "family") rlo
        || containsSub (strL "all") rlo then
      fam
    else
      (splitCommaAnd remainder).foldl
        (fun names token =>
          let t := stripWs token
          if t.isEmpty then names
          else
            match find_members_in_text t fam with
            | [] => names ++ [String.mk t]
            | ms => names ++ ms)
        []

/-- `_handle_payment`. -/
def handle_payment (fam : List String) (line : List Char) (L : LedgerT) (amount : ℚ) : LedgerT :=
  match splitWs line with
  | [] => L
  | w0 :: _ =>
    let payer := normalize_name w0
    let bs0 := extract_beneficiaries fam line
    let bs := if bs0.isEmpty then fam else bs0
    if bs.isEmpty then L
    else
      let split := round2 (qdivNat amount bs.length)
      bs.foldl
        (fun L b =>
          let bn := normalize_name (strL b)
          if bn = payer then L else add_debt L bn payer split)
        L

/-! ### Loan parsing (familybot.py) -/

/-- A loan record of `_parse_loan_line`.  The Arabic `description` display
string is output formatting (out of the spec's scope) and is not modelled. -/
structure Loan where
  borrower : String
  lender : String
  principal : ℚ
  currency : String
  monthly_payment : Option ℚ
deriving DecidableEq, Repr

def is_loan_line (nl : List Char) : Bool :=
  containsSub (strL "loan") nl || containsSub (strL "قرض") nl

/-- `_extract_borrower`. -/
def extract_borrower (line : List Char) : String :=
  match splitWs line with
  | [] => "Unknown"
  | t0 :: _ =>
    if containsSub (strL "took") (lowerL line) then normalize_name t0
    else if containsSub (strL "أخذ") line || containsSub (strL "اخذ") line then String.mk t0
    else normalize_name t0

/-- `_parse_loan_line`. -/
def parse_loan_line (line : List Char) : Except Unit (Option Loan) :=
  let normalized := lowerL line
  if !is_loan_line normalized then .ok none
  else
    match extract_amounts_with_currency line with
    | .error e => .error e
    | .ok [] => .ok none
    | .ok ((principal, currency) :: rest) =>
      let monthly0 := rest.head?.map Prod.fst
      let monthly_payment :=
        if !containsSub (strL "monthly") normalized && !containsSub (strL "شهري") normalized
        then none else monthly0
      .ok (some ⟨extract_borrower line, "Bank", principal, currency, monthly_payment⟩)

/-! ### `FamilyFinanceAgent.analyze` (familybot.py) -/

structure StateFB where
  ledger : LedgerT
  detected : List String
  loans : List Loan
  monthly : List (String × ℚ)
deriving DecidableEq, Repr

def initState : StateFB := ⟨[], [], [], []⟩

/-- One iteration of the `for line in lines` loop of `analyze`. -/
def stepFB (fam : List String) (st : StateFB) (line : List Char) : Except Unit StateFB :=
  let nl := lowerL line
  match extract_amount line with
  | .error e => .error e
  | .ok none => .ok st
  | .ok (some amount) =>
    let st := { st with detected := st.detected ++ [detect_currency line] }
    if is_loan_line nl then
      match parse_loan_line line with
      | .error e => .error e
      | .ok none => .ok st
      | .ok (some loan) =>
        .ok { st with
          loans := st.loans ++ [loan],
          monthly :=
            match loan.monthly_payment with
            | some v =>
              if v ≠ 0 then
                aset loan.borrower (qadd ((alookup loan.borrower st.monthly).getD 0) v) st.monthly
              else st.monthly
            | none => st.monthly }
    else if containsSub (strL "owes") nl then
      .ok { st with ledger := handle_owes fam line st.ledger amount }
    else if containsSub (strL "reimbursed") nl || containsSub (strL "paid back") nl then
      .ok { st with ledger := handle_reimbursement fam line st.ledger amount }
    else if containsSub (strL "paid") nl then
      .ok { st with ledger := handle_payment fam line st.ledger amount }
    else .ok st

def loopFB (fam : List String) : StateFB → List (List Char) → Except Unit StateFB
  | st, [] => .ok st
  | st, l :: ls =>
    match stepFB fam st l with
    | .error e => .error e
    | .ok st' => loopFB fam st' ls

/-- `sorted({c for c in detected if c})` collapsed to what the conditional
chain observes: the empty/singleton/multi distinction and the single element
(sorting does not change any of these). -/
def resolveCurrency (detected : List String) : String :=
  match dedupFirst (detected.filter (fun c => c != "")) with
  | [] => DEFAULT_CURRENCY
  | [c] => c
  | _ => "mixed"

structure ResultFB where
  summary : List (String × Summ)
  settlement_suggestions : List (String × String × ℚ)
  paid_members : List String
  unpaid_members : List String
  currency : String
  loans : List Loan
deriving DecidableEq, Repr

/-- The normalized roster (`__post_init__`). -/
def famOf (members : List String) : List String :=
  members.map (fun m => normalize_name (strL m))

def mkSummary (fam : List String) (st : StateFB) : List (String × Summ) :=
  (dedupFirst fam).map (fun m =>
    (m, ⟨round2 (owesRaw st.ledger m), round2 (dueRaw st.ledger m),
         round2 (qsub (dueRaw st.ledger m) (owesRaw st.ledger m)),
         round2 ((alookup m st.monthly).getD 0)⟩))

def mkResultFB (fam : List String) (st : StateFB) : ResultFB :=
  let summary := mkSummary fam st
  { summary := summary
    settlement_suggestions := settle_suggestions st.ledger
    paid_members := (summary.filter (fun p => decide (0 < p.2.due))).map Prod.fst
    unpaid_members := (summary.filter (fun p => decide (0 < p.2.owes))).map Prod.fst
    currency := resolveCurrency st.detected
    loans := st.loans }

/-- `FamilyFinanceAgent(members).analyze(text)`. -/
def analyze (members : List String) (text : String) : Except Unit ResultFB :=
  let fam := famOf members
  match loopFB fam initState (linesOf text) with
  | .error e => .error e
  | .ok st => .ok (mkResultFB fam st)

/-- The currencies detected during the loop (one per line with an extractable
amount), in order; shares the loop with `analyze`. -/
def detectedCurrencies (members : List String) (text : String) : Except Unit (List String) :=
  match loopFB (famOf members) initState (linesOf text) with
  | .error e => .error e
  | .ok st => .ok st.detected

end Familybot

namespace InitBot

/-! ## Model of `__init__.py` (the net-balance agent) -/

/-- `MemberSummary`. -/
structure MS where
  paid : ℚ
  consumed : ℚ
  net : ℚ
  owes : ℚ
  due : ℚ
  monthly_obligations : ℚ
deriving DecidableEq, Repr

def msZero : MS := ⟨0, 0, 0, 0, 0, 0⟩

/-- `Transaction`. -/
structure Tx where
  description : String
  payer : String
  amount : ℚ
  currency : String
  beneficiaries : List String
  shares : List (String × ℚ)
  category : String
deriving DecidableEq, Repr

/-- A `{"from": ..., "to": ..., "amount": ...}` record (an explicit debt or a
settlement instruction). -/
structure Stl where
  src : String
  dst : String
  amount : ℚ
deriving DecidableEq, Repr

/-- A loan record of `_parse_loan_line` in `__init__.py`.  The
`months_total`, `months_paid` and `remaining_principal` keys are always
`None` in the source and are omitted from the model. -/
structure LoanIn where
  description : String
  borrower : String
  lender : String
  principal : ℚ
  currency : String
  monthly_payment : ℚ
deriving DecidableEq, Repr

/-- `_extract_number`: blank out every character that is not a digit or
`'.'`, split, and return the last token that `float` accepts (per-token
failures are swallowed by the `try`/`except`). -/
def extract_number (l : List Char) : Option ℚ :=
  ((splitWs (l.map (fun c => if isPyDigit c || c == '.' then c else ' '))).reverse).findSome?
    pyFloatDD

/-- `_guess_category`. -/
def guess_category (lower : List Char) : String :=
  if containsSub (strL "rent") lower || containsSub (strL "إيجار") lower then "إيجار"
  else if containsSub (strL "grocery") lower || containsSub (strL "بقالة") lower
      || containsSub (strL "سوبرماركت") lower then "بقالة"
  else if containsSub (strL "school") lower || containsSub (strL "رسوم") lower
      || containsSub (strL "مدرسة") lower then "رسوم مدرسة"
  else if containsSub (strL "salik") lower || containsSub (strL "سالك") lower then "سالِك"
  else if containsSub (strL "parking") lower || containsSub (strL "موقف") lower
      || containsSub (strL "مواقف") lower then "مواقف"
  else if containsSub (strL "electric") lower || containsSub (strL "كهرباء") lower then "كهرباء"
  else if containsSub (strL "water") lower || containsSub (strL "ماء") lower
      || containsSub (strL "مياه") lower then "ماء"
  else if containsSub (strL "etisalat") lower || (splitWs lower).any (fun t => t == strL "du")
      || containsSub (strL "اتصالات") lower || containsSub (strL "إنترنت") lower then "اتصالات"
  else if containsSub (strL "loan") lower || containsSub (strL "قرض") lower then "قرض"
  else "غير مصنف"

/-- The text after the first occurrence of `pat` (`s.split(pat, 1)[1]`);
defaults to the empty text when `pat` does not occur (the callers guard on
occurrence). -/
def afterSubAux (pat : List Char) : ℕ → List Char → Option (List Char)
  | 0, _ => none
  | _ + 1, [] => none
  | f + 1, c :: cs =>
    if startsWithL pat (c :: cs) then some ((c :: cs).drop pat.length)
    else afterSubAux pat f cs

def afterSub (pat l : List Char) : List Char := (afterSubAux pat l.length l).getD []

/-- `_parse_owes_line`. -/
def parse_owes_line (ms : List String) (line : List Char) : Option (String × String × ℚ) :=
  let lower := lowerL line
  if !(containsSub (strL "owes") lower || containsSub (strL "مديون") lower) then none
  else
    let debtor0 := ms.find? (fun n => containsSub (lowerL (strL n)) lower)
    let creditor0 :=
      if containsSub (strL "owes") lower then
        (ms.find? (fun n => containsSub (lowerL (strL n)) (afterSub (strL "owes") lower)))
      else none
    let dc :=
      if containsSub (strL "لـ") line || containsSub (strL "لى") lower then
        ms.foldl
          (fun (dc : Option String × Option String) n =>
            if containsSub (strL n) line then
              match dc with
              | (none, c) => (some n, c)
              | (some d, none) => if n ≠ d then (some d, some n) else (some d, none)
              | x => x
            else dc)
          (debtor0, creditor0)
      else (debtor0, creditor0)
    match dc, extract_number lower with
    | (some d, some c), some a => some (d, c, a)
    | _, _ => none

/-- `_parse_loan_line` of `__init__.py`: note that both `principal` and
`monthly_payment` come from the same `_extract_number(lower)` call (the last
numeric token of the line). -/
def parse_loan_line (ms : List String) (curr : String) (line : List Char) : Option LoanIn :=
  let lower := lowerL line
  if !(containsSub (strL "loan") lower || containsSub (strL "قرض") lower) then none
  else
    match ms.find? (fun n => containsSub (lowerL (strL n)) lower) with
    | none => none
    | some borrower =>
      let principal := (extract_number lower).getD 0
      let monthly_payment :=
        if containsSub (strL "month") lower || containsSub (strL "شهري") lower
            || containsSub (strL "شهرياً") lower then
          (extract_number lower).getD 0
        else 0
      some ⟨String.mk line, borrower, "البنك", principal, curr, monthly_payment⟩

/-- The classification of one line inside `_fallback_parse`. -/
inductive LineRes where
  | tx (t : Tx)
  | debt (d : Stl)
  | loan (l : LoanIn)
  | skip
deriving DecidableEq, Repr

/-- One iteration of the `for line in lines` loop of `_fallback_parse`. -/
def parseLine (ms : List String) (curr : String) (line : List Char) : LineRes :=
  let lower := lowerL line
  let tokens := splitWs (lower.filter (fun c => c != '.'))
  let payer :=
    if tokens.any (fun t => t == strL "paid") then
      ms.find? (fun n => containsSub (lowerL (strL n)) lower)
    else none
  let owesRes :=
    match parse_owes_line ms line with
    | some (d, c, a) => LineRes.debt ⟨d, c, round2 a⟩
    | none =>
      match parse_loan_line ms curr line with
      | some l => LineRes.loan l
      | none => LineRes.skip
  match payer with
  | some p =>
    match extract_number lower with
    | some amount =>
      let beneficiaries :=
        ms.filter (fun n => n != p && containsSub (lowerL (strL n)) lower)
      let beneficiaries :=
        if beneficiaries.isEmpty then ms.filter (fun n => n != p) else beneficiaries
      let share := round2 (qdivNat amount (max beneficiaries.length 1))
      let shares := beneficiaries.foldl (fun acc b => aset b share acc) []
      LineRes.tx ⟨String.mk line, p, amount, curr, beneficiaries, shares,
        guess_category lower⟩
    | none => owesRes
  | none => owesRes

/-- `_fallback_parse`. -/
def fallback_parse (ms : List String) (curr : String) (text : String) :
    List Tx × List Stl × List LoanIn :=
  (linesOf text).foldl
    (fun (acc : List Tx × List Stl × List LoanIn) line =>
      match parseLine ms curr line with
      | .tx t => (acc.1 ++ [t], acc.2.1, acc.2.2)
      | .debt d => (acc.1, acc.2.1 ++ [d], acc.2.2)
      | .loan l => (acc.1, acc.2.1, acc.2.2 ++ [l])
      | .skip => acc)
    ([], [], [])

/-- Pointwise update of one key of an association list (all keys are
distinct, so this is Python's `dict[k] = f(dict[k])`). -/
def aupdate {β : Type} (k : String) (f : β → β) (l : List (String × β)) :
    List (String × β) :=
  l.map (fun p => if p.1 = k then (p.1, f p.2) else p)

/-- The member summaries after the three accumulation passes of `analyze`
(payments, explicit debts, `net += paid - consumed`), before settlements are
computed and before the final rounding. -/
def preSummary (ms : List String) (curr : String) (text : String) : List (String × MS) :=
  let (txs, debts, _) := fallback_parse ms curr text
  let base := (dedupFirst ms).map (fun m => (m, msZero))
  let s1 := txs.foldl
    (fun acc tx =>
      let acc := aupdate tx.payer (fun s => { s with paid := qadd s.paid tx.amount }) acc
      tx.shares.foldl
        (fun acc p => aupdate p.1 (fun s => { s with consumed := qadd s.consumed p.2 }) acc)
        acc)
    base
  let s2 := debts.foldl
    (fun acc d =>
      let acc := aupdate d.src (fun s => { s with net := qsub s.net d.amount }) acc
      aupdate d.dst (fun s => { s with net := qadd s.net d.amount }) acc)
    s1
  s2.map (fun p => (p.1, { p.2 with net := qadd p.2.net (qsub p.2.paid p.2.consumed) }))

/-! ### The settlement engine (`_compute_settlements`) -/

/-- The final state of the two-pointer loop: the emitted settlements and the
remaining (unsettled) suffixes of the debtor and creditor work lists. -/
structure SettleOut where
  stl : List Stl
  ld : List (String × ℚ)
  lc : List (String × ℚ)
deriving DecidableEq, Repr

/-- The two-pointer greedy loop of `_compute_settlements`.  The fuel only
serves to make the recursion structural: every iteration either advances the
debtor pointer or the creditor pointer (the side achieving the minimum drops
to at most `0.005 ≤ 0.01` after paying the rounded minimum), so
`|debtors| + |creditors|` iterations always suffice, and `settleAux` is
fuel-independent from that point on (`settleAux_fuel` below). -/
def settleAux : ℕ → List (String × ℚ) → List (String × ℚ) → SettleOut
  | 0, ds, cs => ⟨[], ds, cs⟩
  | _ + 1, [], cs => ⟨[], [], cs⟩
  | _ + 1, d :: ds, [] => ⟨[], d :: ds, []⟩
  | f + 1, (dn, da) :: ds, (cn, ca) :: cs =>
    let pay := round2 (min da ca)
    let emit : List Stl := if 0 < pay then [⟨dn, cn, pay⟩] else []
    let da' := qsub da pay
    let ca' := qsub ca pay
    if da' ≤ q001 then
      if ca' ≤ q001 then
        let o := settleAux f ds cs
        ⟨emit ++ o.stl, o.ld, o.lc⟩
      else
        let o := settleAux f ds ((cn, ca') :: cs)
        ⟨emit ++ o.stl, o.ld, o.lc⟩
    else
      if ca' ≤ q001 then
        let o := settleAux f ((dn, da') :: ds) cs
        ⟨emit ++ o.stl, o.ld, o.lc⟩
      else
        let o := settleAux f ((dn, da') :: ds) ((cn, ca') :: cs)
        ⟨emit ++ o.stl, o.ld, o.lc⟩

/-- Python's stable descending sort by amount (`list.sort(key=..., reverse=True)`):
insert each element after all elements with a greater-or-equal key. -/
def insDesc (x : String × ℚ) : List (String × ℚ) → List (String × ℚ)
  | [] => [x]
  | y :: ys => if x.2 ≤ y.2 then y :: insDesc x ys else x :: y :: ys

def pySortDesc (l : List (String × ℚ)) : List (String × ℚ) :=
  l.foldl (fun acc x => insDesc x acc) []

/-- The creditors list of `_compute_settlements`: members with `net > 0.01`,
in summary order, paired with their surplus. -/
def creditorsOf (entries : List (String × ℚ)) : List (String × ℚ) :=
  entries.filterMap (fun p => if q001 < p.2 then some p else none)

/-- The debtors list of `_compute_settlements`: members with `net < -0.01`,
in summary order, paired with their (positive) deficit. -/
def debtorsOf (entries : List (String × ℚ)) : List (String × ℚ) :=
  entries.filterMap (fun p => if p.2 < -q001 then some (p.1, -p.2) else none)

/-- `_compute_settlements` (also exposing the leftover work lists). -/
def computeSettlements (entries : List (String × ℚ)) : SettleOut :=
  let debtors := pySortDesc (debtorsOf entries)
  let creditors := pySortDesc (creditorsOf entries)
  settleAux (debtors.length + creditors.length) debtors creditors

/-- The per-member pre-rounding net balances handed to `_compute_settlements`
by `analyze`. -/
def netsOf (ms : List String) (curr : String) (text : String) : List (String × ℚ) :=
  (preSummary ms curr text).map (fun p => (p.1, p.2.net))

def settleOut (ms : List String) (curr : String) (text : String) : SettleOut :=
  computeSettlements (netsOf ms curr text)

/-- The final owes/due assignment and rounding of `analyze`. -/
def finalizeMS (s : MS) : MS :=
  let owes := if s.net < 0 then round2 (-s.net) else 0
  let due := if 0 < s.net then round2 s.net else (0 : ℚ)
  ⟨round2 s.paid, round2 s.consumed, round2 s.net, owes, due,
    round2 s.monthly_obligations⟩

structure ResultInit where
  transactions : List Tx
  loans : List LoanIn
  members : List (String × MS)
  debts : List Stl
  settlements : List Stl
deriving DecidableEq, Repr

/-- `FamilyFinanceAgent(members, currency).analyze(text)` of `__init__.py`.
(`monthly_obligations` is never assigned anywhere in this variant, so it
stays `0`.) -/
def analyze (ms : List String) (curr : String) (text : String) : ResultInit :=
  let (txs, _, loans) := fallback_parse ms curr text
  let stl := (settleOut ms curr text).stl
  { transactions := txs
    loans := loans
    members := (preSummary ms curr text).map (fun p => (p.1, finalizeMS p.2))
    debts := stl
    settlements := stl }

/-- Total amount sent by `n` in a settlement list. -/
def sumFrom (n : String) (l : List Stl) : ℚ :=
  qsum (l.map (fun s => if s.src = n then s.amount else 0))

/-- Total amount received by `n` in a settlement list. -/
def sumTo (n : String) (l : List Stl) : ℚ :=
  qsum (l.map (fun s => if s.dst = n then s.amount else 0))

end InitBot

/-! ## Association-list lemmas -/

theorem alookup_mem {β : Type} {k : String} {v : β} :
    ∀ {l : List (String × β)}, alookup k l = some v → (k, v) ∈ l := by
  intro l
  induction l with
  | nil => intro h; simp [alookup] at h
  | cons p t ih =>
    intro h
    obtain ⟨k', v'⟩ := p
    by_cases hk : k' = k
    · subst hk
      simp [alookup] at h
      subst h
      exact List.mem_cons_self _ _
    · rw [alookup, if_neg hk] at h
      exact List.mem_cons_of_mem _ (ih h)

theorem alookup_aset_self {β : Type} (k : String) (v : β) :
    ∀ (l : List (String × β)), alookup k (aset k v l) = some v := by
  intro l
  induction l with
  | nil => simp [aset, alookup]
  | cons p t ih =>
    obtain ⟨k', v'⟩ := p
    by_cases hk : k' = k
    · subst hk
      simp [aset, alookup]
    · rw [aset, if_neg hk, alookup, if_neg hk]
      exact ih

theorem aset_mem {β : Type} (k : String) (v : β) :
    ∀ (l : List (String × β)) (p : String × β), p ∈ aset k v l → p.2 = v ∨ p ∈ l := by
  intro l
  induction l with
  | nil =>
    intro p hp
    simp [aset] at hp
    simp [hp]
  | cons q t ih =>
    intro p hp
    obtain ⟨k', v'⟩ := q
    by_cases hk : k' = k
    · subst hk
      rw [aset, if_pos rfl] at hp
      rcases List.mem_cons.mp hp with h | h
      · left; rw [h]
      · right; exact List.mem_cons_of_mem _ h
    · rw [aset, if_neg hk] at hp
      rcases List.mem_cons.mp hp with h | h
      · right; rw [h]; exact List.mem_cons_self _ _
      · rcases ih p h with h' | h'
        · left; exact h'
        · right; exact List.mem_cons_of_mem _ h'

namespace Familybot

/-! ### Ledger invariants -/

/-- All stored amounts of the ledger are non-negative. -/
def ledgerNonneg (L : LedgerT) : Prop := ∀ p ∈ L, ∀ q ∈ p.2, (0 : ℚ) ≤ q.2

/-- The stored amount for `debtor -> creditor`, `0` when the entry is absent
(absence of an entry means zero debt). -/
def entryVal (L : LedgerT) (d c : String) : ℚ :=
  (alookup c ((alookup d L).getD [])).getD 0

/-- Is there a stored entry for `debtor -> creditor`? -/
def hasEntry (L : LedgerT) (d c : String) : Bool :=
  match alookup d L with
  | some inner => (alookup c inner).isSome
  | none => false

/-- An `add_debt` or `reduce_debt` call. -/
inductive LOp where
  | add (d c : String) (a : ℚ)
  | red (d c : String) (a : ℚ)

def applyOp (L : LedgerT) : LOp → LedgerT
  | .add d c a => add_debt L d c a
  | .red d c a => reduce_debt L d c a

/-- The ledger after a sequence of calls, starting from the empty ledger. -/
def applyOps (ops : List LOp) : LedgerT := ops.foldl applyOp []

theorem add_debt_nonneg {L : LedgerT} (d c : String) (a : ℚ) (h : ledgerNonneg L) :
    ledgerNonneg (add_debt L d c a) := by
  unfold add_debt
  split
  · exact h
  · rename_i ha
    push_neg at ha
    intro p hp q hq
    have hinner : ∀ q ∈ (alookup d L).getD [], (0 : ℚ) ≤ q.2 := by
      cases hl : alookup d L with
      | none => simp
      | some inner =>
        simpa using h _ (alookup_mem hl)
    have hold : (0 : ℚ) ≤ (alookup c ((alookup d L).getD [])).getD 0 := by
      cases hc : alookup c ((alookup d L).getD []) with
      | none => simp
      | some v =>
        simpa using hinner _ (alookup_mem hc)
    rcases aset_mem _ _ _ _ hp with h2 | h2
    · rcases aset_mem _ _ _ _ (h2 ▸ hq) with h3 | h3
      · rw [h3, qadd_eq]
        linarith
      · exact hinner _ h3
    · exact h _ h2 _ hq

theorem reduce_debt_nonneg {L : LedgerT} (d c : String) (a : ℚ) (h : ledgerNonneg L) :
    ledgerNonneg (reduce_debt L d c a) := by
  unfold reduce_debt
  split
  · exact h
  · split
    · exact h
    · rename_i inner hd
      split
      · exact h
      · rename_i v hc
        intro p hp q hq
        rcases aset_mem _ _ _ _ hp with h2 | h2
        · rcases aset_mem _ _ _ _ (h2 ▸ hq) with h3 | h3
          · rw [h3]
            exact le_max_right _ _
          · exact h _ (alookup_mem hd) _ h3
        · exact h _ h2 _ hq

theorem applyOps_nonneg (ops : List LOp) : ledgerNonneg (applyOps ops) := by
  have key : ∀ (ops : List LOp) (L : LedgerT), ledgerNonneg L →
      ledgerNonneg (ops.foldl applyOp L) := by
    intro ops
    induction ops with
    | nil => intro L h; exact h
    | cons op t ih =>
      intro L h
      rw [List.foldl_cons]
      refine ih _ ?_
      cases op with
      | add d c a => exact add_debt_nonneg d c a h
      | red d c a => exact reduce_debt_nonneg d c a h
  exact key ops [] (by intro p hp; simp at hp)

theorem add_debt_entry (L : LedgerT) (d c : String) (a : ℚ) (ha : 0 < a) :
    entryVal (add_debt L d c a) d c = entryVal L d c + a := by
  unfold add_debt
  rw [if_neg (by linarith)]
  unfold entryVal
  rw [alookup_aset_self, Option.getD_some, alookup_aset_self, Option.getD_some, qadd_eq]

theorem reduce_debt_entry (L : LedgerT) (d c : String) (a : ℚ)
    (h : hasEntry L d c = true) (ha : 0 < a) :
    entryVal (reduce_debt L d c a) d c = max (entryVal L d c - a) 0 := by
  cases hd : alookup d L with
  | none => unfold hasEntry at h; rw [hd] at h; simp at h
  | some inner =>
    cases hc : alookup c inner with
    | none =>
      unfold hasEntry at h
      rw [hd] at h
      dsimp only at h
      rw [hc] at h
      simp at h
    | some v =>
      unfold reduce_debt
      rw [if_neg (by linarith), hd]
      dsimp only
      rw [hc]
      dsimp only
      unfold entryVal
      rw [alookup_aset_self, Option.getD_some, alookup_aset_self, Option.getD_some,
        hd, Option.getD_some, hc, Option.getD_some, qsub_eq]

theorem entryVal_absent (L : LedgerT) (d c : String) (h : hasEntry L d c = false) :
    entryVal L d c = 0 := by
  unfold entryVal
  cases hd : alookup d L with
  | none => simp [alookup]
  | some inner =>
    unfold hasEntry at h
    rw [hd] at h
    dsimp only at h
    rw [Option.getD_some]
    cases hc : alookup c inner with
    | none => rfl
    | some v => rw [hc] at h; simp at h

end Familybot

/-- C9: starting from the empty ledger, after any sequence of `add_debt` and
`reduce_debt` calls every stored debtor→creditor amount is ≥ 0; `add_debt`
with positive amount increases the targeted entry by exactly that amount
(strict increase); `reduce_debt` sets the targeted entry to
`max (old - amount) 0`, clamping at 0 and never driving it negative; and an
absent entry denotes zero debt. -/
theorem C9_ledger_nonneg :
    (∀ ops : List Familybot.LOp, Familybot.ledgerNonneg (Familybot.applyOps ops)) ∧
    (∀ (L : Familybot.LedgerT) (d c : String) (a : ℚ), 0 < a →
      Familybot.entryVal (Familybot.add_debt L d c a) d c = Familybot.entryVal L d c + a) ∧
    (∀ (L : Familybot.LedgerT) (d c : String) (a : ℚ),
      Familybot.hasEntry L d c = true → 0 < a →
      Familybot.entryVal (Familybot.reduce_debt L d c a) d c
        = max (Familybot.entryVal L d c - a) 0 ∧
      0 ≤ max (Familybot.entryVal L d c - a) 0) ∧
    (∀ (L : Familybot.LedgerT) (d c : String),
      Familybot.hasEntry L d c = false → Familybot.entryVal L d c = 0) := by
  refine ⟨Familybot.applyOps_nonneg, Familybot.add_debt_entry, ?_, Familybot.entryVal_absent⟩
  intro L d c a h ha
  exact ⟨Familybot.reduce_debt_entry L d c a h ha, le_max_right _ _⟩

/-- Witness for C9 at concrete inputs. -/
theorem C9_ledger_nonneg_witness :
    Familybot.ledgerNonneg
      (Familybot.applyOps [.add "A" "B" 5, .red "A" "B" 7, .add "A" "B" 3]) ∧
    Familybot.entryVal (Familybot.add_debt [] "A" "B" 5) "A" "B"
      = Familybot.entryVal ([] : Familybot.LedgerT) "A" "B" + 5 :=
  ⟨C9_ledger_nonneg.1 _, C9_ledger_nonneg.2.1 [] "A" "B" 5 (by norm_num)⟩

/-- C10: `reduce_debt` with a non-positive amount, or aimed at a
debtor→creditor pair with no stored entry, leaves the ledger exactly
unchanged (in particular it creates no zero-valued entry), and `add_debt`
with a non-positive amount leaves the ledger unchanged as well. -/
theorem C10_reduce_noop :
    (∀ (L : Familybot.LedgerT) (d c : String) (a : ℚ), a ≤ 0 →
      Familybot.reduce_debt L d c a = L) ∧
    (∀ (L : Familybot.LedgerT) (d c : String) (a : ℚ),
      Familybot.hasEntry L d c = false → Familybot.reduce_debt L d c a = L) ∧
    (∀ (L : Familybot.LedgerT) (d c : String) (a : ℚ), a ≤ 0 →
      Familybot.add_debt L d c a = L) := by
  refine ⟨?_, ?_, ?_⟩
  · intro L d c a h
    unfold Familybot.reduce_debt
    rw [if_pos h]
  · intro L d c a h
    unfold Familybot.reduce_debt
    split
    · rfl
    · cases hd : alookup d L with
      | none => rfl
      | some inner =>
        unfold Familybot.hasEntry at h
        rw [hd] at h
        dsimp only at h ⊢
        cases hc : alookup c inner with
        | none => rfl
        | some v => rw [hc] at h; simp at h
  · intro L d c a h
    unfold Familybot.add_debt
    rw [if_pos h]

/-- Witness for C10 at concrete inputs. -/
theorem C10_reduce_noop_witness :
    Familybot.reduce_debt [("A", [("B", 5)])] "A" "B" (-1) = [("A", [("B", 5)])] ∧
    Familybot.reduce_debt [("A", [("B", 5)])] "A" "C" 2 = [("A", [("B", 5)])] ∧
    Familybot.add_debt [("A", [("B", 5)])] "A" "B" 0 = [("A", [("B", 5)])] :=
  ⟨C10_reduce_noop.1 _ "A" "B" (-1) (by norm_num),
   C10_reduce_noop.2.1 _ "A" "C" 2 (by decide),
   C10_reduce_noop.2.2 _ "A" "B" 0 (by norm_num)⟩

/-- C2: `analyze` is NOT total on adversarial text: on the single-line input
`"1.."` the amount regex matches the token `1..`, and `float("1..")` raises
`ValueError` inside `_extract_amount`, so `analyze` raises instead of
returning a result (the model's `.error ()`).  This contradicts the spec's
"never fail on adversarial or nonsensical input". -/
theorem C2_analyze_crashes_on_malformed_numeral :
    Familybot.analyze ["Omar"] "1.." = .error () := by decide

/-- The currency rule exactly as §4.2 of the spec words it: if the fragment
contains any AED-indicator substring (case-insensitive) then AED, else `$`
or `usd` gives USD, else `€` or `eur` gives EUR, else the configured default
AED.  (Spec-side definition, for comparison with `detect_currency`.) -/
def specDetectCurrency (l : List Char) : String :=
  let lo := lowerL l
  if [strL "aed", strL "dh", strL "dirham", strL "dirhams",
      strL "درهم", strL "درهماً", strL "درهم إماراتي"].any (fun t => containsSub t lo)
  then "AED"
  else if containsSub (strL "$") l || containsSub (strL "usd") lo then "USD"
  else if containsSub (strL "€") l || containsSub (strL "eur") lo then "EUR"
  else "AED"

/-- C7: `_detect_currency` implements exactly the spec's priority rule, and
it always returns exactly one code from the closed set
`{AED, USD, EUR}` — it never fails. -/
theorem C7_detect_currency_spec (l : List Char) :
    Familybot.detect_currency l = specDetectCurrency l ∧
    Familybot.detect_currency l ∈ (["AED", "USD", "EUR"] : List String) := by
  constructor
  · rfl
  · unfold Familybot.detect_currency
    simp only []
    split
    · simp
    · split
      · simp
      · split <;> simp [Familybot.DEFAULT_CURRENCY]

/-! ## Currency resolution lemmas (familybot.py) -/

namespace Familybot

theorem detect_currency_mem (l : List Char) :
    detect_currency l ∈ (["AED", "USD", "EUR"] : List String) := by
  unfold detect_currency
  simp only []
  split
  · simp
  · split
    · simp
    · split <;> simp [DEFAULT_CURRENCY]

theorem stepFB_detected {fam : List String} {st : StateFB} {line : List Char}
    {st' : StateFB} (h : stepFB fam st line = .ok st') :
    st'.detected = st.detected ∨
    st'.detected = st.detected ++ [detect_currency line] := by
  unfold stepFB at h
  cases hext : extract_amount line with
  | error e => rw [hext] at h; exact absurd h (by simp)
  | ok o =>
    rw [hext] at h
    cases o with
    | none =>
      dsimp only at h
      left
      injection h with h
      rw [← h]
    | some amount =>
      dsimp only at h
      right
      split at h
      · cases hp : parse_loan_line line with
        | error e => rw [hp] at h; exact absurd h (by simp)
        | ok o2 =>
          rw [hp] at h
          cases o2 with
          | none => injection h with h; rw [← h]
          | some loan => injection h with h; rw [← h]
      · split at h
        · injection h with h; rw [← h]
        · split at h
          · injection h with h; rw [← h]
          · split at h
            · injection h with h; rw [← h]
            · injection h with h; rw [← h]

theorem loopFB_detected_mem {fam : List String} :
    ∀ (lines : List (List Char)) (st st' : StateFB),
      loopFB fam st lines = .ok st' →
      ∀ c ∈ st'.detected, c ∈ st.detected ∨ c ∈ (["AED", "USD", "EUR"] : List String) := by
  intro lines
  induction lines with
  | nil =>
    intro st st' h c hc
    left
    unfold loopFB at h
    injection h with h
    rw [← h] at hc
    exact hc
  | cons l ls ih =>
    intro st st' h c hc
    unfold loopFB at h
    cases hs : stepFB fam st l with
    | error e => rw [hs] at h; exact absurd h (by simp)
    | ok st1 =>
      rw [hs] at h
      rcases ih st1 st' h c hc with h1 | h1
      · rcases stepFB_detected hs with h2 | h2
        · rw [h2] at h1; left; exact h1
        · rw [h2] at h1
          rcases List.mem_append.mp h1 with h3 | h3
          · left; exact h3
          · right
            have : c = detect_currency l := by simpa using h3
            rw [this]
            exact detect_currency_mem l
      · right; exact h1

end Familybot

/-- Unwrap a familybot analysis result (used only to phrase closed
witnesses). -/
def exOkFB (e : Except Unit Familybot.ResultFB) : Familybot.ResultFB :=
  match e with
  | .ok r => r
  | .error _ => ⟨[], [], [], [], "", []⟩

/-- Unwrap a detected-currency list (used only to phrase closed witnesses). -/
def exOkL (e : Except Unit (List String)) : List String :=
  match e with
  | .ok l => l
  | .error _ => []

/-- C5: when `analyze` returns a result, its `currency` field is the single
detected currency code when exactly one distinct currency was detected
across the input lines, and the sentinel `"mixed"` when more than one
distinct currency was detected. -/
theorem C5_mixed_currency (ms : List String) (t : String) (r : Familybot.ResultFB)
    (ds : List String) (hr : Familybot.analyze ms t = .ok r)
    (hd : Familybot.detectedCurrencies ms t = .ok ds) :
    (∀ c, dedupFirst ds = [c] → r.currency = c) ∧
    (2 ≤ (dedupFirst ds).length → r.currency = "mixed") := by
  unfold Familybot.analyze at hr
  dsimp only at hr
  unfold Familybot.detectedCurrencies at hd
  cases hl : Familybot.loopFB (Familybot.famOf ms) Familybot.initState (linesOf t) with
  | error e => rw [hl] at hr; exact absurd hr (by simp)
  | ok st =>
    rw [hl] at hr hd
    injection hr with hr
    injection hd with hd
    subst hd
    have hcurr : r.currency = Familybot.resolveCurrency st.detected := by
      rw [← hr]
      rfl
    have hmem : ∀ c ∈ st.detected, c ∈ (["AED", "USD", "EUR"] : List String) := by
      intro c hc
      rcases Familybot.loopFB_detected_mem _ _ _ hl c hc with h | h
      · simp [Familybot.initState] at h
      · exact h
    have hne : st.detected.filter (fun c => c != "") = st.detected := by
      rw [List.filter_eq_self]
      intro a ha
      have h := hmem a ha
      simp only [List.mem_cons, List.not_mem_nil, or_false] at h
      rcases h with h | h | h <;> subst h <;> decide
    rw [Familybot.resolveCurrency, hne] at hcurr
    constructor
    · intro c hc
      rw [hc] at hcurr
      exact hcurr
    · intro hlen
      cases hdd : dedupFirst st.detected with
      | nil => rw [hdd] at hlen; simp at hlen
      | cons a tl =>
        cases tl with
        | nil => rw [hdd] at hlen; simp at hlen
        | cons b tl2 => rw [hdd] at hcurr; exact hcurr

def c5Text : String := "Alex paid $5\nAlex paid 5 AED"

/-- Witness for C5: a two-line input detecting USD then AED resolves to
`"mixed"`. -/
theorem C5_mixed_currency_witness :
    2 ≤ (dedupFirst (exOkL (Familybot.detectedCurrencies ["Alex"] c5Text))).length ∧
    (exOkFB (Familybot.analyze ["Alex"] c5Text)).currency = "mixed" := by
  refine ⟨by decide, ?_⟩
  exact (C5_mixed_currency ["Alex"] c5Text
    (exOkFB (Familybot.analyze ["Alex"] c5Text))
    (exOkL (Familybot.detectedCurrencies ["Alex"] c5Text))
    (by decide) (by decide)).2 (by decide)

/-! ## C4: loan dual-amount extraction (familybot.py) -/

def c4Line : String := "Omar took a loan of 9000 and pays 500 per month"

def omarLine : String := "Omar took a car loan of 100,000 AED and will pay 5,000 AED monthly."

/-- C4 counterexample: this loan line contains the month keyword `"month"`
(the keyword the claim names) and two extractable amounts, yet the parsed
loan's `monthly_payment` is `None` rather than the second amount `500`,
because the code tests for the substring `"monthly"`, not `"month"`. -/
theorem C4_counterexample :
    containsSub (strL "month") (lowerL (strL c4Line)) = true ∧
    Familybot.extract_amounts_with_currency (strL c4Line)
      = .ok [((9000 : ℚ), "AED"), ((500 : ℚ), "AED")] ∧
    Familybot.parse_loan_line (strL c4Line)
      = .ok (some ⟨"Omar", "Bank", 9000, "AED", none⟩) := by
  decide

/-- C4 (amended): for every loan line, the parsed record's `principal` is the
first extracted amount, and `monthly_payment` is the second extracted amount
exactly when the line contains `"monthly"` or `"شهري"` (absent otherwise —
in particular a bare `"month"` does not trigger it).  Moreover the spec's
concrete example behaves as stated: the Omar line yields exactly one loan
with borrower `"Omar"`, principal `100000`, and Omar's
`monthly_obligations` equal to `5000`. -/
theorem C4_loan_dual_amounts (line : List Char) (l : Familybot.Loan)
    (amounts : List (ℚ × String))
    (h : Familybot.parse_loan_line line = .ok (some l))
    (ha : Familybot.extract_amounts_with_currency line = .ok amounts) :
    ((amounts.map Prod.fst).head? = some l.principal ∧
      l.monthly_payment =
        (if containsSub (strL "monthly") (lowerL line)
            || containsSub (strL "شهري") (lowerL line)
         then (amounts.map Prod.fst)[1]? else none)) ∧
    ((exOkFB (Familybot.analyze ["Omar"] omarLine)).loans
        = [⟨"Omar", "Bank", 100000, "AED", some 5000⟩] ∧
      alookup "Omar" (exOkFB (Familybot.analyze ["Omar"] omarLine)).summary
        = some ⟨0, 0, 0, 5000⟩) := by
  refine ⟨?_, by decide, by decide⟩
  unfold Familybot.parse_loan_line at h
  rw [ha] at h
  by_cases hl : Familybot.is_loan_line (lowerL line)
  · rw [if_neg (by simp [hl])] at h
    dsimp only at h
    cases amounts with
    | nil => exact absurd h (by simp)
    | cons pc rest =>
      obtain ⟨p, cur⟩ := pc
      dsimp only at h
      injection h with h
      injection h with h
      subst h
      constructor
      · rfl
      · show (if !containsSub (strL "monthly") (lowerL line)
                && !containsSub (strL "شهري") (lowerL line)
              then none else rest.head?.map Prod.fst) = _
        have hidx : (((p, cur) :: rest).map Prod.fst)[1]? = rest.head?.map Prod.fst := by
          rcases rest with _ | ⟨q, t⟩ <;> simp
        rw [hidx]
        cases hA : containsSub (strL "monthly") (lowerL line) <;>
          cases hB : containsSub (strL "شهري") (lowerL line) <;> simp [hA, hB]
  · rw [if_pos (by simp [hl])] at h
    exact absurd h (by simp)

/-- Witness for C4 at the Omar line. -/
theorem C4_loan_dual_amounts_witness :
    (([((100000 : ℚ), "AED"), ((5000 : ℚ), "AED")].map Prod.fst).head?
      = some (⟨"Omar", "Bank", 100000, "AED", some 5000⟩ : Familybot.Loan).principal) :=
  ((C4_loan_dual_amounts (strL omarLine) ⟨"Omar", "Bank", 100000, "AED", some 5000⟩
    [((100000 : ℚ), "AED"), ((5000 : ℚ), "AED")] (by decide) (by decide)).1).1

/-! ## C3: balance sign exclusivity -/

def c3Text : String := "Alex owes Jamie 50\nJamie owes Alex 30"

/-- C3 counterexample: in the `familybot.py` variant the summary comes from
`Ledger.totals`, where `owes` and `due` are independent sums; with the
reciprocal debts "Alex owes Jamie 50" and "Jamie owes Alex 30", Alex's
summary has `owes = 50` and `due = 30`, both nonzero — the claimed
exclusivity is false for these analysis results. -/
theorem C3_counterexample :
    alookup "Alex" (exOkFB (Familybot.analyze ["Alex", "Jamie"] c3Text)).summary
      = some ⟨50, 30, -20, 0⟩ ∧
    ¬ (∀ p ∈ (exOkFB (Familybot.analyze ["Alex", "Jamie"] c3Text)).summary,
        (0 < p.2.owes → p.2.due = 0) ∧ (0 < p.2.due → p.2.owes = 0)) := by
  decide

/-- C3 (amended): in the net-balance variant (`__init__.py`), whose `analyze`
derives `owes`/`due` from the sign of the net balance, the exclusivity does
hold for every member of every analysis result: `owes > 0` implies
`due = 0`, `due > 0` implies `owes = 0`, and both are zero only when the
member's (rounded) net balance is within 0.01 of zero.  In the ledger-totals
variant (`familybot.py`) both can be nonzero at once (see the
counterexample). -/
theorem C3_sign_exclusivity (ms : List String) (curr t : String) (m : String)
    (s : InitBot.MS) (h : (m, s) ∈ (InitBot.analyze ms curr t).members) :
    (0 < s.owes → s.due = 0) ∧ (0 < s.due → s.owes = 0) ∧
    (s.owes = 0 ∧ s.due = 0 → |s.net| ≤ q001) := by
  unfold InitBot.analyze at h
  rcases hfp : InitBot.fallback_parse ms curr t with ⟨txs, debts, loans⟩
  rw [hfp] at h
  dsimp only at h
  rcases List.mem_map.mp h with ⟨⟨m0, s0⟩, hm0, heq⟩
  dsimp only at heq
  have hs : s = InitBot.finalizeMS s0 := ((Prod.mk.injEq _ _ _ _).mp heq).2.symm
  subst hs
  unfold InitBot.finalizeMS
  dsimp only
  have hb := abs_round2_sub_le s0.net
  rw [abs_le] at hb
  by_cases hn : s0.net < 0
  · rw [if_pos hn, if_neg (by linarith)]
    have hbm := abs_round2_sub_le (-s0.net)
    rw [abs_le] at hbm
    refine ⟨fun _ => rfl, fun hd => absurd hd (by norm_num), fun ⟨ho, _⟩ => ?_⟩
    rw [ho] at hbm
    rw [abs_le, q001_eq]
    constructor <;> linarith [hbm.1, hbm.2, hb.1, hb.2]
  · by_cases hp : 0 < s0.net
    · rw [if_neg hn, if_pos hp]
      have hbm := abs_round2_sub_le s0.net
      rw [abs_le] at hbm
      refine ⟨fun ho => absurd ho (by norm_num), fun _ => rfl, fun ⟨_, hd⟩ => ?_⟩
      rw [hd] at hbm
      rw [abs_le, q001_eq]
      constructor <;> linarith [hbm.1, hbm.2, hb.1, hb.2]
    · have hz : s0.net = 0 := by linarith
      rw [if_neg hn, if_neg hp]
      refine ⟨fun ho => absurd ho (by norm_num), fun hd => absurd hd (by norm_num),
        fun _ => ?_⟩
      rw [hz]
      have : round2 0 = 0 := by decide
      rw [this]
      rw [q001_eq]
      norm_num

/-- Witness for C3 at a concrete analysis (empty text, roster `["Alex"]`). -/
theorem C3_sign_exclusivity_witness :
    |(⟨0, 0, 0, 0, 0, 0⟩ : InitBot.MS).net| ≤ q001 :=
  (C3_sign_exclusivity ["Alex"] "AED" "" "Alex" ⟨0, 0, 0, 0, 0, 0⟩
    (by decide)).2.2 ⟨by decide, by decide⟩

/-! ## C8: even split of a payment -/

theorem aset_of_absent {β : Type} {k : String} {v : β} :
    ∀ {l : List (String × β)}, alookup k l = none → aset k v l = l ++ [(k, v)] := by
  intro l
  induction l with
  | nil => intro _; rfl
  | cons p t ih =>
    intro h
    obtain ⟨k', v'⟩ := p
    by_cases hk : k' = k
    · subst hk
      rw [alookup, if_pos rfl] at h
      exact absurd h (by simp)
    · rw [alookup, if_neg hk] at h
      rw [aset, if_neg hk, List.cons_append, ih h]

theorem alookup_append_none {β : Type} {k : String} {l1 l2 : List (String × β)}
    (h : alookup k l1 = none) : alookup k (l1 ++ l2) = alookup k l2 := by
  induction l1 with
  | nil => rfl
  | cons p t ih =>
    obtain ⟨k', v'⟩ := p
    by_cases hk : k' = k
    · subst hk
      rw [alookup, if_pos rfl] at h
      exact absurd h (by simp)
    · rw [alookup, if_neg hk] at h
      rw [List.cons_append, alookup, if_neg hk]
      exact ih h

/-- Building the Python dict `{b: v for b in bs}` with distinct keys gives
the association list `[(b, v) for b in bs]`. -/
theorem foldl_aset_map (v : ℚ) :
    ∀ (bs : List String) (acc : List (String × ℚ)), bs.Nodup →
      (∀ b ∈ bs, alookup b acc = none) →
      bs.foldl (fun acc b => aset b v acc) acc = acc ++ bs.map (fun b => (b, v)) := by
  intro bs
  induction bs with
  | nil => intro acc _ _; simp
  | cons b t ih =>
    intro acc hnd habs
    rw [List.foldl_cons, aset_of_absent (habs b (List.mem_cons_self _ _))]
    rw [ih (acc ++ [(b, v)]) (List.Nodup.of_cons hnd) ?_]
    · simp
    · intro b' hb'
      have hne : b ≠ b' := by
        intro hbe
        subst hbe
        exact (List.nodup_cons.mp hnd).1 hb'
      rw [alookup_append_none (habs b' (List.mem_cons_of_mem _ hb'))]
      rw [alookup, if_neg hne]
      rfl

theorem sum_map_constQ {α : Type} (c : ℚ) :
    ∀ (l : List α), (l.map fun _ => c).sum = (l.length : ℚ) * c := by
  intro l
  induction l with
  | nil => simp
  | cons x t ih =>
    rw [List.map_cons, List.sum_cons, ih, List.length_cons]
    push_cast
    ring

/-- C8: for every parsed Payment transaction with a non-empty beneficiary
list (over a duplicate-free roster), each beneficiary's share is exactly
`round(amount/n, 2)` where `n` is the number of beneficiaries, and the sum
of the shares differs from the amount by at most `0.01·n`. -/
theorem C8_even_split (ms : List String) (curr t : String) (hnd : ms.Nodup)
    (tx : InitBot.Tx) (htx : tx ∈ (InitBot.fallback_parse ms curr t).1)
    (hb : tx.beneficiaries ≠ []) :
    (∀ p ∈ tx.shares, p.2 = round2 (tx.amount / (tx.beneficiaries.length : ℚ))) ∧
    |(tx.shares.map Prod.snd).sum - tx.amount|
      ≤ (tx.beneficiaries.length : ℚ) / 100 := by
  -- every emitted transaction comes from one line's `parseLine`
  have hline : ∃ line, InitBot.parseLine ms curr line = .tx tx := by
    have key : ∀ (lines : List (List Char)) (acc : List InitBot.Tx × List InitBot.Stl × List InitBot.LoanIn),
        tx ∈ (lines.foldl
          (fun acc line =>
            match InitBot.parseLine ms curr line with
            | .tx t => (acc.1 ++ [t], acc.2.1, acc.2.2)
            | .debt d => (acc.1, acc.2.1 ++ [d], acc.2.2)
            | .loan l => (acc.1, acc.2.1, acc.2.2 ++ [l])
            | .skip => acc) acc).1 →
        tx ∈ acc.1 ∨ ∃ line, InitBot.parseLine ms curr line = .tx tx := by
      intro lines
      induction lines with
      | nil => intro acc h; left; exact h
      | cons l ls ih =>
        intro acc h
        rw [List.foldl_cons] at h
        rcases ih _ h with h1 | h1
        · cases hp : InitBot.parseLine ms curr l with
          | tx t0 =>
            rw [hp] at h1
            rcases List.mem_append.mp h1 with h2 | h2
            · left; exact h2
            · right
              refine ⟨l, ?_⟩
              rw [hp]
              have : tx = t0 := by simpa using h2
              rw [this]
          | debt d => rw [hp] at h1; left; exact h1
          | loan lo => rw [hp] at h1; left; exact h1
          | skip => rw [hp] at h1; left; exact h1
        · right; exact h1
    unfold InitBot.fallback_parse at htx
    rcases key _ _ htx with h | h
    · simp at h
    · exact h
  obtain ⟨line, hp⟩ := hline
  unfold InitBot.parseLine at hp
  dsimp only at hp
  split at hp
  · rename_i p hfind
    split at hp
    · rename_i amount hnum
      -- the Payment branch: extract the record
      injection hp with hp
      subst hp
      dsimp only at hb ⊢
      -- the beneficiary list is a filter of the (duplicate-free) roster
      set bs := (if (ms.filter fun n =>
            n != p && containsSub (lowerL (strL n)) (lowerL line)).isEmpty = true
          then ms.filter (fun n => n != p)
          else ms.filter fun n => n != p && containsSub (lowerL (strL n)) (lowerL line))
        with hbs
      have hbnd : bs.Nodup := by
        rw [hbs]
        split <;> exact List.Nodup.filter _ hnd
      set shr := round2 (qdivNat amount (max bs.length 1)) with hshr
      have hshares : bs.foldl (fun acc b => aset b shr acc) [] = bs.map (fun b => (b, shr)) := by
        rw [foldl_aset_map shr bs [] hbnd (by intro b _; rfl)]
        simp
      have hn1 : 1 ≤ bs.length := by
        rcases bs with _ | ⟨x, t⟩
        · exact absurd rfl hb
        · simp
      have hmax : max bs.length 1 = bs.length := by omega
      have hnQ : ((bs.length : ℚ)) ≠ 0 := by
        have : (0 : ℚ) < (bs.length : ℚ) := by exact_mod_cast hn1
        linarith
      have hshr' : shr = round2 (amount / (bs.length : ℚ)) := by
        rw [hshr, hmax, qdivNat_eq]
      constructor
      · intro q hq
        rw [hshares] at hq
        rcases List.mem_map.mp hq with ⟨b, _, hbq⟩
        rw [← hbq, hshr']
      · rw [hshares, List.map_map]
        have hmc : (bs.map (Prod.snd ∘ fun b => (b, shr))).sum = (bs.length : ℚ) * shr := by
          have : (Prod.snd ∘ fun b : String => (b, shr)) = fun _ => shr := rfl
          rw [this, sum_map_constQ]
        rw [hmc, hshr']
        have hrb := abs_round2_sub_le (amount / (bs.length : ℚ))
        have hsplit : (bs.length : ℚ) * round2 (amount / (bs.length : ℚ)) - amount
            = (bs.length : ℚ) * (round2 (amount / (bs.length : ℚ)) - amount / (bs.length : ℚ)) := by
          field_simp
          ring
        rw [hsplit, abs_mul]
        have hposn : (0 : ℚ) ≤ (bs.length : ℚ) := by positivity
        rw [abs_of_nonneg hposn]
        calc (bs.length : ℚ) * |round2 (amount / (bs.length : ℚ)) - amount / (bs.length : ℚ)|
            ≤ (bs.length : ℚ) * (1 / 200) := by
              exact mul_le_mul_of_nonneg_left hrb hposn
          _ ≤ (bs.length : ℚ) / 100 := by linarith
    · -- no amount: the line was not classified as a Payment
      split at hp
      · simp_all
      · split at hp <;> simp_all
  · -- no payer: the line was not classified as a Payment
    split at hp
    · simp_all
    · split at hp <;> simp_all

def c8Tx : InitBot.Tx :=
  ⟨"Alex paid 10 for Jamie", "Alex", 10, "AED", ["Jamie"], [("Jamie", 10)], "غير مصنف"⟩

/-- Witness for C8 on `"Alex paid 10 for Jamie"`. -/
theorem C8_even_split_witness :
    |(c8Tx.shares.map Prod.snd).sum - c8Tx.amount|
      ≤ (c8Tx.beneficiaries.length : ℚ) / 100 :=
  (C8_even_split ["Alex", "Jamie"] "AED" "Alex paid 10 for Jamie" (by decide)
    c8Tx (by decide) (by decide)).2

/-! ## C6: settlement cardinality and termination -/

namespace InitBot

/-- The rounded payment leaves the minimum side with at most 0.005. -/
theorem pay_min_drop (da ca : ℚ) : min da ca - round2 (min da ca) ≤ 1/200 := by
  linarith [le_round2 (min da ca)]

/-- The "neither pointer advances" branch of the loop is unreachable: after
paying the rounded minimum, the side achieving the minimum is left with at
most 0.005 ≤ 0.01. -/
theorem both_stay_absurd {da ca : ℚ}
    (hd : ¬ qsub da (round2 (min da ca)) ≤ q001)
    (hc : ¬ qsub ca (round2 (min da ca)) ≤ q001) : False := by
  rw [qsub_eq, q001_eq] at hd hc
  push_neg at hd hc
  have hdrop := pay_min_drop da ca
  rcases min_choice da ca with h | h <;> rw [h] at hd hc hdrop <;> linarith

/-- Each loop iteration emits at most one settlement and the loop runs out
of one of the two lists, so at most `|debtors| + |creditors| - 1`
settlements are emitted. -/
theorem settleAux_length :
    ∀ (f : ℕ) (ds cs : List (String × ℚ)),
      (settleAux f ds cs).stl.length ≤ ds.length + cs.length - 1 := by
  intro f
  induction f with
  | zero => intro ds cs; simp [settleAux]
  | succ f ih =>
    intro ds cs
    match ds, cs with
    | [], cs => simp [settleAux]
    | d :: ds', [] => simp [settleAux]
    | (dn, da) :: ds', (cn, ca) :: cs' =>
      unfold settleAux
      dsimp only
      have hemit : (if 0 < round2 (min da ca)
          then [(⟨dn, cn, round2 (min da ca)⟩ : Stl)] else []).length ≤ 1 := by
        split <;> simp
      by_cases hda : qsub da (round2 (min da ca)) ≤ q001 <;>
        by_cases hca : qsub ca (round2 (min da ca)) ≤ q001
      · rw [if_pos hda, if_pos hca]
        have := ih ds' cs'
        simp only [List.length_append, List.length_cons]
        omega
      · rw [if_pos hda, if_neg hca]
        have := ih ds' ((cn, qsub ca (round2 (min da ca))) :: cs')
        simp only [List.length_append, List.length_cons] at this ⊢
        omega
      · rw [if_neg hda, if_pos hca]
        have := ih ((dn, qsub da (round2 (min da ca))) :: ds') cs'
        simp only [List.length_append, List.length_cons] at this ⊢
        omega
      · exact absurd (both_stay_absurd hda hca) (by simp)

/-- The loop is fuel-insensitive once the fuel reaches
`|debtors| + |creditors|`: the Python `while` loop terminates within that
many iterations. -/
theorem settleAux_fuel :
    ∀ (f1 f2 : ℕ) (ds cs : List (String × ℚ)),
      ds.length + cs.length ≤ f1 → ds.length + cs.length ≤ f2 →
      settleAux f1 ds cs = settleAux f2 ds cs := by
  intro f1
  induction f1 with
  | zero =>
    intro f2 ds cs h1 h2
    have hds : ds = [] := List.length_eq_zero.mp (by omega)
    have hcs : cs = [] := List.length_eq_zero.mp (by omega)
    subst hds; subst hcs
    cases f2 <;> rfl
  | succ f1 ih =>
    intro f2 ds cs h1 h2
    match ds, cs with
    | [], cs =>
      cases f2 with
      | zero =>
        have : cs = [] := List.length_eq_zero.mp (by simpa using h2)
        subst this
        rfl
      | succ g => rfl
    | d :: ds', [] =>
      cases f2 with
      | zero => simp at h2
      | succ g => rfl
    | (dn, da) :: ds', (cn, ca) :: cs' =>
      cases f2 with
      | zero => simp at h2
      | succ g =>
        show settleAux (f1 + 1) _ _ = settleAux (g + 1) _ _
        unfold settleAux
        dsimp only
        simp only [List.length_cons] at h1 h2
        by_cases hda : qsub da (round2 (min da ca)) ≤ q001 <;>
          by_cases hca : qsub ca (round2 (min da ca)) ≤ q001
        · rw [if_pos hda, if_pos hca, if_pos hda, if_pos hca,
            ih g ds' cs' (by omega) (by omega)]
        · rw [if_pos hda, if_neg hca, if_pos hda, if_neg hca,
            ih g ds' ((cn, qsub ca (round2 (min da ca))) :: cs')
              (by simp only [List.length_cons]; omega)
              (by simp only [List.length_cons]; omega)]
        · rw [if_neg hda, if_pos hca, if_neg hda, if_pos hca,
            ih g ((dn, qsub da (round2 (min da ca))) :: ds') cs'
              (by simp only [List.length_cons]; omega)
              (by simp only [List.length_cons]; omega)]
        · exact absurd (both_stay_absurd hda hca) (by simp)

theorem insDesc_perm (x : String × ℚ) :
    ∀ (l : List (String × ℚ)), List.Perm (insDesc x l) (x :: l) := by
  intro l
  induction l with
  | nil => rfl
  | cons y ys ih =>
    rw [insDesc]
    split
    · exact (ih.cons y).trans (List.Perm.swap x y ys)
    · rfl

theorem pySortDesc_perm (l : List (String × ℚ)) : List.Perm (pySortDesc l) l := by
  have key : ∀ (l acc : List (String × ℚ)),
      List.Perm (l.foldl (fun acc x => insDesc x acc) acc) (acc ++ l) := by
    intro l
    induction l with
    | nil => intro acc; simp
    | cons x xs ih =>
      intro acc
      rw [List.foldl_cons]
      refine ((ih (insDesc x acc)).trans ?_)
      refine (((insDesc_perm x acc).append_right xs).trans ?_)
      exact List.perm_middle.symm.trans (by simp)
  simpa using key l []

theorem pySortDesc_length (l : List (String × ℚ)) :
    (pySortDesc l).length = l.length :=
  (pySortDesc_perm l).length_eq

end InitBot

/-- C6: for every net-balance input, the greedy two-pointer settlement loop
terminates — concretely, `|debtors| + |creditors|` iterations of fuel always
suffice and any larger fuel computes the same result — and it emits at most
`|debtors| + |creditors| - 1` settlement records, where debtors are the
members with `net < -0.01` and creditors those with `net > 0.01`. -/
theorem C6_settlement_cardinality (entries : List (String × ℚ)) (fuel : ℕ)
    (hf : (InitBot.debtorsOf entries).length + (InitBot.creditorsOf entries).length ≤ fuel) :
    InitBot.settleAux fuel (InitBot.pySortDesc (InitBot.debtorsOf entries))
        (InitBot.pySortDesc (InitBot.creditorsOf entries))
      = InitBot.computeSettlements entries ∧
    (InitBot.computeSettlements entries).stl.length
      ≤ (InitBot.debtorsOf entries).length + (InitBot.creditorsOf entries).length - 1 := by
  have hld := InitBot.pySortDesc_length (InitBot.debtorsOf entries)
  have hlc := InitBot.pySortDesc_length (InitBot.creditorsOf entries)
  constructor
  · unfold InitBot.computeSettlements
    refine InitBot.settleAux_fuel fuel _ _ _ ?_ ?_ <;> omega
  · unfold InitBot.computeSettlements
    dsimp only
    have := InitBot.settleAux_length
      ((InitBot.pySortDesc (InitBot.debtorsOf entries)).length
        + (InitBot.pySortDesc (InitBot.creditorsOf entries)).length)
      (InitBot.pySortDesc (InitBot.debtorsOf entries))
      (InitBot.pySortDesc (InitBot.creditorsOf entries))
    omega

/-- Witness for C6 on a concrete two-member balance. -/
theorem C6_settlement_cardinality_witness :
    (InitBot.computeSettlements [("A", 5), ("B", -5)]).stl.length
      ≤ (InitBot.debtorsOf [("A", 5), ("B", -5)]).length
        + (InitBot.creditorsOf [("A", 5), ("B", -5)]).length - 1 :=
  (C6_settlement_cardinality [("A", 5), ("B", -5)] 2 (by decide)).2

/-! ## C1: settlement conservation lemmas -/

namespace InitBot

theorem sumFrom_append (n : String) (l1 l2 : List Stl) :
    sumFrom n (l1 ++ l2) = sumFrom n l1 + sumFrom n l2 := by
  unfold sumFrom
  rw [qsum_eq, qsum_eq, qsum_eq, List.map_append, List.sum_append]

theorem sumTo_append (n : String) (l1 l2 : List Stl) :
    sumTo n (l1 ++ l2) = sumTo n l1 + sumTo n l2 := by
  unfold sumTo
  rw [qsum_eq, qsum_eq, qsum_eq, List.map_append, List.sum_append]

theorem sumFrom_single (n : String) (s : Stl) :
    sumFrom n [s] = if s.src = n then s.amount else 0 := by
  unfold sumFrom
  rw [qsum_eq]
  simp

theorem sumTo_single (n : String) (s : Stl) :
    sumTo n [s] = if s.dst = n then s.amount else 0 := by
  unfold sumTo
  rw [qsum_eq]
  simp

theorem sumFrom_nil (n : String) : sumFrom n [] = 0 := by
  unfold sumFrom
  rw [qsum_eq]
  simp

theorem sumTo_nil (n : String) : sumTo n [] = 0 := by
  unfold sumTo
  rw [qsum_eq]
  simp

theorem sumFrom_zero {n : String} :
    ∀ {l : List Stl}, (∀ s ∈ l, s.src ≠ n) → sumFrom n l = 0 := by
  intro l
  induction l with
  | nil => intro _; exact sumFrom_nil n
  | cons s t ih =>
    intro h
    have : s :: t = [s] ++ t := rfl
    rw [this, sumFrom_append, sumFrom_single,
      if_neg (h s (List.mem_cons_self _ _)), ih (fun x hx => h x (List.mem_cons_of_mem _ hx))]
    ring

theorem sumTo_zero {n : String} :
    ∀ {l : List Stl}, (∀ s ∈ l, s.dst ≠ n) → sumTo n l = 0 := by
  intro l
  induction l with
  | nil => intro _; exact sumTo_nil n
  | cons s t ih =>
    intro h
    have : s :: t = [s] ++ t := rfl
    rw [this, sumTo_append, sumTo_single,
      if_neg (h s (List.mem_cons_self _ _)), ih (fun x hx => h x (List.mem_cons_of_mem _ hx))]
    ring

/-- Every emitted settlement goes from a listed debtor to a listed
creditor. -/
theorem settleAux_mem :
    ∀ (f : ℕ) (ds cs : List (String × ℚ)) (s : Stl), s ∈ (settleAux f ds cs).stl →
      s.src ∈ ds.map Prod.fst ∧ s.dst ∈ cs.map Prod.fst := by
  intro f
  induction f with
  | zero => intro ds cs s hs; simp [settleAux] at hs
  | succ f ih =>
    intro ds cs s hs
    match ds, cs with
    | [], cs => simp [settleAux] at hs
    | d :: ds', [] => simp [settleAux] at hs
    | (d0, a0) :: ds', (c0, b0) :: cs' =>
      unfold settleAux at hs
      dsimp only at hs
      have hemit : ∀ (e : List Stl),
          e = (if 0 < round2 (min a0 b0) then [(⟨d0, c0, round2 (min a0 b0)⟩ : Stl)] else []) →
          s ∈ e → s.src = d0 ∧ s.dst = c0 := by
        intro e he hse
        subst he
        split at hse
        · have : s = ⟨d0, c0, round2 (min a0 b0)⟩ := by simpa using hse
          rw [this]
          exact ⟨rfl, rfl⟩
        · simp at hse
      by_cases hda : qsub a0 (round2 (min a0 b0)) ≤ q001 <;>
        by_cases hca : qsub b0 (round2 (min a0 b0)) ≤ q001
      · rw [if_pos hda, if_pos hca] at hs
        dsimp only at hs
        rcases List.mem_append.mp hs with h | h
        · obtain ⟨h1, h2⟩ := hemit _ rfl h
          rw [h1, h2]
          exact ⟨by simp, by simp⟩
        · obtain ⟨h1, h2⟩ := ih ds' cs' s h
          exact ⟨List.mem_cons_of_mem _ h1, List.mem_cons_of_mem _ h2⟩
      · rw [if_pos hda, if_neg hca] at hs
        dsimp only at hs
        rcases List.mem_append.mp hs with h | h
        · obtain ⟨h1, h2⟩ := hemit _ rfl h
          rw [h1, h2]
          exact ⟨by simp, by simp⟩
        · obtain ⟨h1, h2⟩ := ih ds' ((c0, qsub b0 (round2 (min a0 b0))) :: cs') s h
          refine ⟨List.mem_cons_of_mem _ h1, ?_⟩
          simpa using h2
      · rw [if_neg hda, if_pos hca] at hs
        dsimp only at hs
        rcases List.mem_append.mp hs with h | h
        · obtain ⟨h1, h2⟩ := hemit _ rfl h
          rw [h1, h2]
          exact ⟨by simp, by simp⟩
        · obtain ⟨h1, h2⟩ := ih ((d0, qsub a0 (round2 (min a0 b0))) :: ds') cs' s h
          refine ⟨?_, List.mem_cons_of_mem _ h2⟩
          simpa using h1
      · exact absurd (both_stay_absurd hda hca) (by simp)

theorem sumFrom_settleAux_zero {n : String} (f : ℕ) (ds cs : List (String × ℚ))
    (h : n ∉ ds.map Prod.fst) : sumFrom n (settleAux f ds cs).stl = 0 := by
  refine sumFrom_zero ?_
  intro s hs hsrc
  exact h (hsrc ▸ (settleAux_mem f ds cs s hs).1)

theorem sumTo_settleAux_zero {n : String} (f : ℕ) (ds cs : List (String × ℚ))
    (h : n ∉ cs.map Prod.fst) : sumTo n (settleAux f ds cs).stl = 0 := by
  refine sumTo_zero ?_
  intro s hs hdst
  exact h (hdst ▸ (settleAux_mem f ds cs s hs).2)

end InitBot

namespace InitBot

/-- Per-debtor conservation: if debtor `dn` (with deficit `da`) is in the
work list and is not among the leftover debtors when the loop stops, the
total it pays is a grid value within `[da - 0.01, da + 0.005]`. -/
theorem settleAux_debtor :
    ∀ (f : ℕ) (ds cs : List (String × ℚ)),
      ds.length + cs.length ≤ f →
      (ds.map Prod.fst).Nodup →
      (∀ n ∈ ds.map Prod.fst, n ∉ cs.map Prod.fst) →
      (∀ p ∈ ds, q001 < p.2) →
      (∀ p ∈ cs, q001 < p.2) →
      ∀ dn da, (dn, da) ∈ ds →
      dn ∉ ((settleAux f ds cs).ld.map Prod.fst) →
      isGrid (sumFrom dn (settleAux f ds cs).stl) ∧
      da - 1/100 ≤ sumFrom dn (settleAux f ds cs).stl ∧
      sumFrom dn (settleAux f ds cs).stl ≤ da + 1/200 := by
  intro f
  induction f with
  | zero =>
    intro ds cs hlen _ _ _ _ dn da hmem _
    have hds : ds = [] := List.length_eq_zero.mp (by omega)
    subst hds
    simp at hmem
  | succ f ih =>
    intro ds cs hlen hnd hdisj hdpos hcpos dn da hmem hld
    match ds, cs with
    | [], _ => simp at hmem
    | (d0, a0) :: ds', [] =>
      exfalso
      have hldeq : (settleAux (f + 1) ((d0, a0) :: ds') []).ld = (d0, a0) :: ds' := rfl
      rw [hldeq] at hld
      exact hld (List.mem_map_of_mem Prod.fst hmem)
    | (d0, a0) :: ds', (c0, b0) :: cs' =>
      simp only [List.length_cons] at hlen
      simp only [List.map_cons] at hnd hdisj
      have hnd0 : d0 ∉ ds'.map Prod.fst := (List.nodup_cons.mp hnd).1
      have hnd' : (ds'.map Prod.fst).Nodup := (List.nodup_cons.mp hnd).2
      have ha0 : q001 < a0 := hdpos _ (List.mem_cons_self _ _)
      have hb0 : q001 < b0 := hcpos _ (List.mem_cons_self _ _)
      have hq : q001 = 1/100 := q001_eq
      unfold settleAux at hld ⊢
      dsimp only at hld ⊢
      set pay := round2 (min a0 b0) with hpay
      have hlb : min a0 b0 - 1/200 ≤ pay := by rw [hpay]; exact le_round2 _
      have hub : pay ≤ min a0 b0 + 1/200 := by rw [hpay]; exact round2_le _
      have hminq : (1 : ℚ)/100 < min a0 b0 := by
        rw [hq] at ha0 hb0
        exact lt_min ha0 hb0
      have hposp : 0 < pay := by linarith
      have hgridpay : isGrid pay := by rw [hpay]; exact isGrid_round2 _
      have hmin_a : min a0 b0 ≤ a0 := min_le_left _ _
      by_cases hda : qsub a0 pay ≤ q001 <;> by_cases hca : qsub b0 pay ≤ q001
      · -- both advance
        rw [if_pos hda, if_pos hca] at hld ⊢
        rw [if_pos hposp]
        dsimp only at hld ⊢
        rcases List.mem_cons.mp hmem with hhead | htail
        · have h1 : dn = d0 := congrArg Prod.fst hhead
          have h2 : da = a0 := congrArg Prod.snd hhead
          subst h1; subst h2
          rw [sumFrom_append, sumFrom_single, if_pos rfl,
            sumFrom_settleAux_zero f ds' cs' hnd0, add_zero]
          rw [qsub_eq, hq] at hda
          exact ⟨hgridpay, by linarith, by linarith⟩
        · have hdn' : dn ∈ ds'.map Prod.fst := List.mem_map_of_mem Prod.fst htail
          have hne : d0 ≠ dn := fun he => hnd0 (he ▸ hdn')
          rw [sumFrom_append, sumFrom_single, if_neg hne, zero_add]
          exact ih ds' cs' (by omega) hnd'
            (fun n hn => fun hc => hdisj n (List.mem_cons_of_mem _ hn) (List.mem_cons_of_mem _ hc))
            (fun p hp => hdpos p (List.mem_cons_of_mem _ hp))
            (fun p hp => hcpos p (List.mem_cons_of_mem _ hp))
            dn da htail hld
      · -- debtor advances, creditor stays
        rw [if_pos hda, if_neg hca] at hld ⊢
        rw [if_pos hposp]
        dsimp only at hld ⊢
        push_neg at hca
        rcases List.mem_cons.mp hmem with hhead | htail
        · have h1 : dn = d0 := congrArg Prod.fst hhead
          have h2 : da = a0 := congrArg Prod.snd hhead
          subst h1; subst h2
          rw [sumFrom_append, sumFrom_single, if_pos rfl,
            sumFrom_settleAux_zero f ds' ((c0, qsub b0 pay) :: cs') hnd0, add_zero]
          rw [qsub_eq, hq] at hda
          exact ⟨hgridpay, by linarith, by linarith⟩
        · have hdn' : dn ∈ ds'.map Prod.fst := List.mem_map_of_mem Prod.fst htail
          have hne : d0 ≠ dn := fun he => hnd0 (he ▸ hdn')
          rw [sumFrom_append, sumFrom_single, if_neg hne, zero_add]
          refine ih ds' ((c0, qsub b0 pay) :: cs') (by simp only [List.length_cons]; omega)
            hnd' ?_ (fun p hp => hdpos p (List.mem_cons_of_mem _ hp)) ?_ dn da htail hld
          · intro n hn
            have := hdisj n (List.mem_cons_of_mem _ hn)
            simpa using this
          · intro p hp
            rcases List.mem_cons.mp hp with h | h
            · rw [h]
              exact hca
            · exact hcpos p (List.mem_cons_of_mem _ h)
      · -- creditor advances, debtor stays
        rw [if_neg hda, if_pos hca] at hld ⊢
        rw [if_pos hposp]
        dsimp only at hld ⊢
        push_neg at hda
        have hkeys : (((d0, qsub a0 pay) :: ds').map Prod.fst) = d0 :: ds'.map Prod.fst := by
          simp
        rcases List.mem_cons.mp hmem with hhead | htail
        · have h1 : dn = d0 := congrArg Prod.fst hhead
          have h2 : da = a0 := congrArg Prod.snd hhead
          subst h1; subst h2
          rw [sumFrom_append, sumFrom_single, if_pos rfl]
          obtain ⟨hg, hl, hu⟩ := ih ((dn, qsub da pay) :: ds') cs'
            (by simp only [List.length_cons]; omega)
            (by rw [hkeys]; exact hnd)
            (by
              rw [hkeys]
              intro n hn
              have := hdisj n hn
              exact fun hc => this (List.mem_cons_of_mem _ hc))
            (by
              intro p hp
              rcases List.mem_cons.mp hp with h | h
              · rw [h]
                exact hda
              · exact hdpos p (List.mem_cons_of_mem _ h))
            (fun p hp => hcpos p (List.mem_cons_of_mem _ hp))
            dn (qsub da pay) (List.mem_cons_self _ _) hld
          have hsub : qsub da pay = da - pay := qsub_eq _ _
          exact ⟨isGrid_add hgridpay hg, by linarith, by linarith⟩
        · have hdn' : dn ∈ ds'.map Prod.fst := List.mem_map_of_mem Prod.fst htail
          have hne : d0 ≠ dn := fun he => hnd0 (he ▸ hdn')
          rw [sumFrom_append, sumFrom_single, if_neg hne, zero_add]
          refine ih ((d0, qsub a0 pay) :: ds') cs' (by simp only [List.length_cons]; omega)
            (by rw [hkeys]; exact hnd)
            (by
              rw [hkeys]
              intro n hn
              have := hdisj n hn
              exact fun hc => this (List.mem_cons_of_mem _ hc))
            (by
              intro p hp
              rcases List.mem_cons.mp hp with h | h
              · rw [h]
                exact hda
              · exact hdpos p (List.mem_cons_of_mem _ h))
            (fun p hp => hcpos p (List.mem_cons_of_mem _ hp))
            dn da (List.mem_cons_of_mem _ htail) hld
      · exact absurd (both_stay_absurd hda hca) (by simp)

end InitBot

namespace InitBot

/-- Per-creditor conservation, the mirror image of `settleAux_debtor`. -/
theorem settleAux_creditor :
    ∀ (f : ℕ) (ds cs : List (String × ℚ)),
      ds.length + cs.length ≤ f →
      (cs.map Prod.fst).Nodup →
      (∀ n ∈ cs.map Prod.fst, n ∉ ds.map Prod.fst) →
      (∀ p ∈ ds, q001 < p.2) →
      (∀ p ∈ cs, q001 < p.2) →
      ∀ cn ca, (cn, ca) ∈ cs →
      cn ∉ ((settleAux f ds cs).lc.map Prod.fst) →
      isGrid (sumTo cn (settleAux f ds cs).stl) ∧
      ca - 1/100 ≤ sumTo cn (settleAux f ds cs).stl ∧
      sumTo cn (settleAux f ds cs).stl ≤ ca + 1/200 := by
  intro f
  induction f with
  | zero =>
    intro ds cs hlen _ _ _ _ cn ca hmem _
    have hcs : cs = [] := List.length_eq_zero.mp (by omega)
    subst hcs
    simp at hmem
  | succ f ih =>
    intro ds cs hlen hnd hdisj hdpos hcpos cn ca hmem hlc
    match ds, cs with
    | _, [] => simp at hmem
    | [], (c0, b0) :: cs' =>
      exfalso
      have hlceq : (settleAux (f + 1) [] ((c0, b0) :: cs')).lc = (c0, b0) :: cs' := rfl
      rw [hlceq] at hlc
      exact hlc (List.mem_map_of_mem Prod.fst hmem)
    | (d0, a0) :: ds', (c0, b0) :: cs' =>
      simp only [List.length_cons] at hlen
      simp only [List.map_cons] at hnd hdisj
      have hnd0 : c0 ∉ cs'.map Prod.fst := (List.nodup_cons.mp hnd).1
      have hnd' : (cs'.map Prod.fst).Nodup := (List.nodup_cons.mp hnd).2
      have ha0 : q001 < a0 := hdpos _ (List.mem_cons_self _ _)
      have hb0 : q001 < b0 := hcpos _ (List.mem_cons_self _ _)
      have hq : q001 = 1/100 := q001_eq
      unfold settleAux at hlc ⊢
      dsimp only at hlc ⊢
      set pay := round2 (min a0 b0) with hpay
      have hlb : min a0 b0 - 1/200 ≤ pay := by rw [hpay]; exact le_round2 _
      have hub : pay ≤ min a0 b0 + 1/200 := by rw [hpay]; exact round2_le _
      have hminq : (1 : ℚ)/100 < min a0 b0 := by
        rw [hq] at ha0 hb0
        exact lt_min ha0 hb0
      have hposp : 0 < pay := by linarith
      have hgridpay : isGrid pay := by rw [hpay]; exact isGrid_round2 _
      have hmin_b : min a0 b0 ≤ b0 := min_le_right _ _
      by_cases hda : qsub a0 pay ≤ q001 <;> by_cases hca : qsub b0 pay ≤ q001
      · -- both advance
        rw [if_pos hda, if_pos hca] at hlc ⊢
        rw [if_pos hposp]
        dsimp only at hlc ⊢
        rcases List.mem_cons.mp hmem with hhead | htail
        · have h1 : cn = c0 := congrArg Prod.fst hhead
          have h2 : ca = b0 := congrArg Prod.snd hhead
          subst h1; subst h2
          rw [sumTo_append, sumTo_single, if_pos rfl,
            sumTo_settleAux_zero f ds' cs' hnd0, add_zero]
          rw [qsub_eq, hq] at hca
          exact ⟨hgridpay, by linarith, by linarith⟩
        · have hcn' : cn ∈ cs'.map Prod.fst := List.mem_map_of_mem Prod.fst htail
          have hne : c0 ≠ cn := fun he => hnd0 (he ▸ hcn')
          rw [sumTo_append, sumTo_single, if_neg hne, zero_add]
          exact ih ds' cs' (by omega) hnd'
            (fun n hn => fun hc => hdisj n (List.mem_cons_of_mem _ hn) (List.mem_cons_of_mem _ hc))
            (fun p hp => hdpos p (List.mem_cons_of_mem _ hp))
            (fun p hp => hcpos p (List.mem_cons_of_mem _ hp))
            cn ca htail hlc
      · -- debtor advances, creditor stays
        rw [if_pos hda, if_neg hca] at hlc ⊢
        rw [if_pos hposp]
        dsimp only at hlc ⊢
        push_neg at hca
        have hkeys : (((c0, qsub b0 pay) :: cs').map Prod.fst) = c0 :: cs'.map Prod.fst := by
          simp
        rcases List.mem_cons.mp hmem with hhead | htail
        · have h1 : cn = c0 := congrArg Prod.fst hhead
          have h2 : ca = b0 := congrArg Prod.snd hhead
          subst h1; subst h2
          rw [sumTo_append, sumTo_single, if_pos rfl]
          obtain ⟨hg, hl, hu⟩ := ih ds' ((cn, qsub ca pay) :: cs')
            (by simp only [List.length_cons]; omega)
            (by rw [hkeys]; exact hnd)
            (by
              rw [hkeys]
              intro n hn
              have := hdisj n hn
              exact fun hc => this (List.mem_cons_of_mem _ hc))
            (fun p hp => hdpos p (List.mem_cons_of_mem _ hp))
            (by
              intro p hp
              rcases List.mem_cons.mp hp with h | h
              · rw [h]
                exact hca
              · exact hcpos p (List.mem_cons_of_mem _ h))
            cn (qsub ca pay) (List.mem_cons_self _ _) hlc
          have hsub : qsub ca pay = ca - pay := qsub_eq _ _
          exact ⟨isGrid_add hgridpay hg, by linarith, by linarith⟩
        · have hcn' : cn ∈ cs'.map Prod.fst := List.mem_map_of_mem Prod.fst htail
          have hne : c0 ≠ cn := fun he => hnd0 (he ▸ hcn')
          rw [sumTo_append, sumTo_single, if_neg hne, zero_add]
          refine ih ds' ((c0, qsub b0 pay) :: cs') (by simp only [List.length_cons]; omega)
            (by rw [hkeys]; exact hnd)
            (by
              rw [hkeys]
              intro n hn
              have := hdisj n hn
              exact fun hc => this (List.mem_cons_of_mem _ hc))
            (fun p hp => hdpos p (List.mem_cons_of_mem _ hp))
            (by
              intro p hp
              rcases List.mem_cons.mp hp with h | h
              · rw [h]
                exact hca
              · exact hcpos p (List.mem_cons_of_mem _ h))
            cn ca (List.mem_cons_of_mem _ htail) hlc
      · -- creditor advances, debtor stays
        rw [if_neg hda, if_pos hca] at hlc ⊢
        rw [if_pos hposp]
        dsimp only at hlc ⊢
        push_neg at hda
        rcases List.mem_cons.mp hmem with hhead | htail
        · have h1 : cn = c0 := congrArg Prod.fst hhead
          have h2 : ca = b0 := congrArg Prod.snd hhead
          subst h1; subst h2
          rw [sumTo_append, sumTo_single, if_pos rfl,
            sumTo_settleAux_zero f ((d0, qsub a0 pay) :: ds') cs' hnd0, add_zero]
          rw [qsub_eq, hq] at hca
          exact ⟨hgridpay, by linarith, by linarith⟩
        · have hcn' : cn ∈ cs'.map Prod.fst := List.mem_map_of_mem Prod.fst htail
          have hne : c0 ≠ cn := fun he => hnd0 (he ▸ hcn')
          rw [sumTo_append, sumTo_single, if_neg hne, zero_add]
          refine ih ((d0, qsub a0 pay) :: ds') cs' (by simp only [List.length_cons]; omega)
            hnd' ?_ ?_ (fun p hp => hcpos p (List.mem_cons_of_mem _ hp))
            cn ca htail hlc
          · intro n hn
            have := hdisj n (List.mem_cons_of_mem _ hn)
            simp only [List.map_cons, List.mem_cons]
            rintro (h | h)
            · exact this (by simp [h])
            · exact this (List.mem_cons_of_mem _ h)
          · intro p hp
            rcases List.mem_cons.mp hp with h | h
            · rw [h]
              exact hda
            · exact hdpos p (List.mem_cons_of_mem _ h)
      · exact absurd (both_stay_absurd hda hca) (by simp)

end InitBot

/-! ## C1: glue between `analyze` and the settlement lemmas -/

theorem dedupFirst_nodup : ∀ l : List String, (dedupFirst l).Nodup := by
  intro l
  induction l with
  | nil => exact List.nodup_nil
  | cons x xs ih =>
    rw [dedupFirst]
    refine List.nodup_cons.mpr ⟨?_, ih.filter _⟩
    intro hx
    have := (List.mem_filter.mp hx).2
    simp at this

theorem keyedUniq {β : Type} :
    ∀ {l : List (String × β)}, (l.map Prod.fst).Nodup →
      ∀ {k : String} {v1 v2 : β}, (k, v1) ∈ l → (k, v2) ∈ l → v1 = v2 := by
  intro l
  induction l with
  | nil => intro _ k v1 v2 h; simp at h
  | cons p t ih =>
    intro hnd k v1 v2 h1 h2
    simp only [List.map_cons, List.nodup_cons] at hnd
    rcases List.mem_cons.mp h1 with he1 | ht1 <;> rcases List.mem_cons.mp h2 with he2 | ht2
    · rw [← he1] at he2
      exact (congrArg Prod.snd he2.symm)
    · exfalso
      apply hnd.1
      have hpk : p.1 = k := congrArg Prod.fst he1.symm
      rw [hpk]
      exact List.mem_map.mpr ⟨(k, v2), ht2, rfl⟩
    · exfalso
      apply hnd.1
      have hpk : p.1 = k := congrArg Prod.fst he2.symm
      rw [hpk]
      exact List.mem_map.mpr ⟨(k, v1), ht1, rfl⟩
    · exact ih hnd.2 ht1 ht2

namespace InitBot

theorem aupdate_keys {β : Type} (k : String) (f : β → β) (l : List (String × β)) :
    (aupdate k f l).map Prod.fst = l.map Prod.fst := by
  unfold aupdate
  rw [List.map_map]
  congr 1
  funext p
  dsimp
  split <;> rfl

theorem foldl_keys {α : Type} (step : List (String × MS) → α → List (String × MS))
    (hstep : ∀ acc x, ((step acc x).map Prod.fst) = acc.map Prod.fst) :
    ∀ (l : List α) (acc : List (String × MS)),
      ((l.foldl step acc).map Prod.fst) = acc.map Prod.fst := by
  intro l
  induction l with
  | nil => intro acc; rfl
  | cons x xs ih =>
    intro acc
    rw [List.foldl_cons, ih, hstep]

theorem map_fst_pair_update {β γ : Type} (g : String × β → String × γ)
    (hg : ∀ p, (g p).1 = p.1) (l : List (String × β)) :
    (l.map g).map Prod.fst = l.map Prod.fst := by
  rw [List.map_map]
  congr 1
  funext p
  exact hg p

theorem preSummary_keys (ms : List String) (curr t : String) :
    (preSummary ms curr t).map Prod.fst = dedupFirst ms := by
  unfold preSummary
  rcases hfp : fallback_parse ms curr t with ⟨txs, debts, loans⟩
  dsimp only
  rw [map_fst_pair_update _ (by intro p; rfl)]
  rw [foldl_keys _ (fun acc d => by rw [aupdate_keys, aupdate_keys])]
  rw [foldl_keys _ (fun acc tx => by
    rw [foldl_keys _ (fun acc2 p => by rw [aupdate_keys]), aupdate_keys])]
  rw [List.map_map]
  exact List.map_id _

theorem netsOf_keys (ms : List String) (curr t : String) :
    (netsOf ms curr t).map Prod.fst = dedupFirst ms := by
  unfold netsOf
  rw [map_fst_pair_update _ (by intro p; rfl)]
  exact preSummary_keys ms curr t

theorem debtorsOf_mem {entries : List (String × ℚ)} {m : String} {a : ℚ} :
    (m, a) ∈ debtorsOf entries ↔
      ∃ net, (m, net) ∈ entries ∧ net < -q001 ∧ a = -net := by
  unfold debtorsOf
  rw [List.mem_filterMap]
  constructor
  · rintro ⟨p, hp, hfp⟩
    split at hfp
    · rename_i hlt
      refine ⟨p.2, ?_, hlt, ?_⟩
      · have h1 : p.1 = m := congrArg Prod.fst (Option.some.inj hfp)
        rw [← h1]
        exact hp
      · exact (congrArg Prod.snd (Option.some.inj hfp)).symm
    · simp at hfp
  · rintro ⟨net, hmem, hlt, rfl⟩
    exact ⟨(m, net), hmem, by rw [if_pos hlt]⟩

theorem creditorsOf_mem {entries : List (String × ℚ)} {m : String} {a : ℚ} :
    (m, a) ∈ creditorsOf entries ↔ (m, a) ∈ entries ∧ q001 < a := by
  unfold creditorsOf
  rw [List.mem_filterMap]
  constructor
  · rintro ⟨p, hp, hfp⟩
    split at hfp
    · rename_i hlt
      have := Option.some.inj hfp
      rw [this] at hp hlt
      exact ⟨hp, hlt⟩
    · simp at hfp
  · rintro ⟨hmem, hlt⟩
    exact ⟨(m, a), hmem, by rw [if_pos hlt]⟩

theorem debtorsOf_names (entries : List (String × ℚ)) :
    (debtorsOf entries).map Prod.fst
      = (entries.filter (fun p => decide (p.2 < -q001))).map Prod.fst := by
  induction entries with
  | nil => rfl
  | cons p t ih =>
    unfold debtorsOf at ih ⊢
    by_cases h : p.2 < -q001
    · rw [List.filterMap_cons, List.filter_cons_of_pos (by simpa using h), if_pos h]
      dsimp only
      rw [List.map_cons, List.map_cons, ih]
    · rw [List.filterMap_cons, List.filter_cons_of_neg (by simpa using h), if_neg h]
      dsimp only
      rw [ih]

theorem creditorsOf_names (entries : List (String × ℚ)) :
    (creditorsOf entries).map Prod.fst
      = (entries.filter (fun p => decide (q001 < p.2))).map Prod.fst := by
  induction entries with
  | nil => rfl
  | cons p t ih =>
    unfold creditorsOf at ih ⊢
    by_cases h : q001 < p.2
    · rw [List.filterMap_cons, List.filter_cons_of_pos (by simpa using h), if_pos h]
      dsimp only
      rw [List.map_cons, List.map_cons, ih]
    · rw [List.filterMap_cons, List.filter_cons_of_neg (by simpa using h), if_neg h]
      dsimp only
      rw [ih]

end InitBot

namespace InitBot

theorem netsOf_nodup (ms : List String) (curr t : String) :
    ((netsOf ms curr t).map Prod.fst).Nodup := by
  rw [netsOf_keys]
  exact dedupFirst_nodup ms

theorem debtorsOf_nodup {entries : List (String × ℚ)}
    (hnd : (entries.map Prod.fst).Nodup) :
    ((debtorsOf entries).map Prod.fst).Nodup := by
  rw [debtorsOf_names]
  exact List.Nodup.sublist ((List.filter_sublist _).map Prod.fst) hnd

theorem creditorsOf_nodup {entries : List (String × ℚ)}
    (hnd : (entries.map Prod.fst).Nodup) :
    ((creditorsOf entries).map Prod.fst).Nodup := by
  rw [creditorsOf_names]
  exact List.Nodup.sublist ((List.filter_sublist _).map Prod.fst) hnd

/-- Conservation for `_compute_settlements`: every member that is not on a
leftover work list when the two-pointer loop stops pays within `0.01` of its
rounded deficit and receives within `0.01` of its rounded surplus. -/
theorem computeSettlements_conservation (entries : List (String × ℚ))
    (hnd : (entries.map Prod.fst).Nodup) (m : String) (net : ℚ)
    (hmem : (m, net) ∈ entries)
    (hld : m ∉ ((computeSettlements entries).ld.map Prod.fst))
    (hlc : m ∉ ((computeSettlements entries).lc.map Prod.fst)) :
    |sumFrom m (computeSettlements entries).stl
        - (if net < 0 then round2 (-net) else 0)| ≤ 1/100 ∧
    |sumTo m (computeSettlements entries).stl
        - (if 0 < net then round2 net else (0 : ℚ))| ≤ 1/100 := by
  have hq : q001 = 1/100 := q001_eq
  unfold computeSettlements at hld hlc ⊢
  dsimp only at hld hlc ⊢
  set ds := pySortDesc (debtorsOf entries) with hdsdef
  set cs := pySortDesc (creditorsOf entries) with hcsdef
  have hpermd : List.Perm ds (debtorsOf entries) := pySortDesc_perm _
  have hpermc : List.Perm cs (creditorsOf entries) := pySortDesc_perm _
  have hnds : (ds.map Prod.fst).Nodup :=
    ((hpermd.map Prod.fst).nodup_iff).mpr (debtorsOf_nodup hnd)
  have hncs : (cs.map Prod.fst).Nodup :=
    ((hpermc.map Prod.fst).nodup_iff).mpr (creditorsOf_nodup hnd)
  have hdisj : ∀ n ∈ ds.map Prod.fst, n ∉ cs.map Prod.fst := by
    intro n hn hcn
    obtain ⟨⟨n1, a⟩, hpa, hp1⟩ := List.mem_map.mp hn
    dsimp at hp1
    subst hp1
    obtain ⟨⟨n2, b⟩, hpb, hp2⟩ := List.mem_map.mp hcn
    dsimp at hp2
    subst hp2
    obtain ⟨net1, hnet1, hlt1, _⟩ := debtorsOf_mem.mp (hpermd.mem_iff.mp hpa)
    obtain ⟨hnet2, hlt2⟩ := creditorsOf_mem.mp (hpermc.mem_iff.mp hpb)
    have heq : net1 = b := keyedUniq hnd hnet1 hnet2
    rw [hq] at hlt1 hlt2
    rw [heq] at hlt1
    linarith
  have hdisjC : ∀ n ∈ cs.map Prod.fst, n ∉ ds.map Prod.fst :=
    fun n hc hd => hdisj n hd hc
  have hdpos : ∀ p ∈ ds, q001 < p.2 := by
    rintro ⟨pn, pa⟩ hp
    obtain ⟨net1, _, hlt1, ha⟩ := debtorsOf_mem.mp (hpermd.mem_iff.mp hp)
    dsimp only
    rw [ha]
    linarith
  have hcpos : ∀ p ∈ cs, q001 < p.2 := by
    rintro ⟨pn, pa⟩ hp
    exact (creditorsOf_mem.mp (hpermc.mem_iff.mp hp)).2
  by_cases hneg : net < -q001
  · -- m is a debtor
    have hmds : (m, -net) ∈ ds :=
      hpermd.mem_iff.mpr (debtorsOf_mem.mpr ⟨net, hmem, hneg, rfl⟩)
    obtain ⟨hg, hl, hu⟩ := settleAux_debtor (ds.length + cs.length) ds cs
      le_rfl hnds hdisj hdpos hcpos m (-net) hmds hld
    have hmn : m ∈ ds.map Prod.fst := List.mem_map_of_mem Prod.fst hmds
    have hto : sumTo m (settleAux (ds.length + cs.length) ds cs).stl = 0 :=
      sumTo_settleAux_zero _ ds cs (hdisj m hmn)
    have hnet0 : net < 0 := by rw [hq] at hneg; linarith
    rw [if_pos hnet0, if_neg (by linarith : ¬ (0:ℚ) < net), hto]
    constructor
    · have hr1 := round2_le (-net)
      have hr2 := le_round2 (-net)
      have hgrid : isGrid (sumFrom m (settleAux (ds.length + cs.length) ds cs).stl
          - round2 (-net)) := isGrid_sub hg (isGrid_round2 _)
      refine isGrid_abs_le hgrid (abs_le.mpr ⟨by linarith, by linarith⟩)
    · norm_num
  · by_cases hpos : q001 < net
    · -- m is a creditor
      have hmcs : (m, net) ∈ cs :=
        hpermc.mem_iff.mpr (creditorsOf_mem.mpr ⟨hmem, hpos⟩)
      obtain ⟨hg, hl, hu⟩ := settleAux_creditor (ds.length + cs.length) ds cs
        le_rfl hncs hdisjC hdpos hcpos m net hmcs hlc
      have hmn : m ∈ cs.map Prod.fst := List.mem_map_of_mem Prod.fst hmcs
      have hfrom : sumFrom m (settleAux (ds.length + cs.length) ds cs).stl = 0 :=
        sumFrom_settleAux_zero _ ds cs (hdisjC m hmn)
      have hnet0 : (0:ℚ) < net := by rw [hq] at hpos; linarith
      rw [if_pos hnet0, if_neg (by linarith : ¬ net < 0), hfrom]
      constructor
      · norm_num
      · have hr1 := round2_le net
        have hr2 := le_round2 net
        have hgrid : isGrid (sumTo m (settleAux (ds.length + cs.length) ds cs).stl
            - round2 net) := isGrid_sub hg (isGrid_round2 _)
        refine isGrid_abs_le hgrid (abs_le.mpr ⟨by linarith, by linarith⟩)
    · -- m is in the dead band, untouched by the loop
      push_neg at hneg hpos
      have hmd : m ∉ ds.map Prod.fst := by
        intro hn
        obtain ⟨⟨n1, a⟩, hpa, hp1⟩ := List.mem_map.mp hn
        dsimp at hp1
        subst hp1
        obtain ⟨net1, hnet1, hlt1, _⟩ := debtorsOf_mem.mp (hpermd.mem_iff.mp hpa)
        have heq : net1 = net := keyedUniq hnd hnet1 hmem
        rw [heq] at hlt1
        linarith
      have hmc : m ∉ cs.map Prod.fst := by
        intro hn
        obtain ⟨⟨n2, b⟩, hpb, hp2⟩ := List.mem_map.mp hn
        dsimp at hp2
        subst hp2
        obtain ⟨hnet2, hlt2⟩ := creditorsOf_mem.mp (hpermc.mem_iff.mp hpb)
        have heq : b = net := keyedUniq hnd hnet2 hmem
        rw [heq] at hlt2
        linarith
      have hfrom : sumFrom m (settleAux (ds.length + cs.length) ds cs).stl = 0 :=
        sumFrom_settleAux_zero _ ds cs hmd
      have hto : sumTo m (settleAux (ds.length + cs.length) ds cs).stl = 0 :=
        sumTo_settleAux_zero _ ds cs hmc
      rw [hfrom, hto]
      have hqv : (0:ℚ) < 1/100 := by norm_num
      rw [hq] at hneg hpos
      constructor
      · by_cases hn0 : net < 0
        · rw [if_pos hn0]
          have hr1 := round2_le (-net)
          have hr2 := le_round2 (-net)
          have hgrid : isGrid ((0:ℚ) - round2 (-net)) :=
            isGrid_sub isGrid_zero (isGrid_round2 _)
          refine isGrid_abs_le hgrid (abs_le.mpr ⟨by linarith, by linarith⟩)
        · rw [if_neg hn0]; norm_num
      · by_cases hn0 : (0:ℚ) < net
        · rw [if_pos hn0]
          have hr1 := round2_le net
          have hr2 := le_round2 net
          have hgrid : isGrid ((0:ℚ) - round2 net) :=
            isGrid_sub isGrid_zero (isGrid_round2 _)
          refine isGrid_abs_le hgrid (abs_le.mpr ⟨by linarith, by linarith⟩)
        · rw [if_neg hn0]; norm_num

theorem analyze_settlements (ms : List String) (curr t : String) :
    (analyze ms curr t).settlements = (settleOut ms curr t).stl := by
  unfold analyze
  rcases hfp : fallback_parse ms curr t with ⟨txs, debts, loans⟩
  rfl

theorem analyze_members (ms : List String) (curr t : String) :
    (analyze ms curr t).members
      = (preSummary ms curr t).map (fun p => (p.1, finalizeMS p.2)) := by
  unfold analyze
  rcases hfp : fallback_parse ms curr t with ⟨txs, debts, loans⟩
  rfl

theorem members_mem {ms : List String} {curr t m : String} {s : MS}
    (h : (m, s) ∈ (analyze ms curr t).members) :
    ∃ s0, (m, s0) ∈ preSummary ms curr t ∧ s = finalizeMS s0 := by
  rw [analyze_members] at h
  obtain ⟨⟨m0, s0⟩, hp, he⟩ := List.mem_map.mp h
  have hm : m0 = m := congrArg Prod.fst he
  have hs : finalizeMS s0 = s := congrArg Prod.snd he
  subst hm
  exact ⟨s0, hp, hs.symm⟩

theorem netsOf_mem {ms : List String} {curr t m : String} {s0 : MS}
    (h : (m, s0) ∈ preSummary ms curr t) : (m, s0.net) ∈ netsOf ms curr t := by
  unfold netsOf
  exact List.mem_map.mpr ⟨(m, s0), h, rfl⟩

theorem settleOut_def (ms : List String) (curr t : String) :
    settleOut ms curr t = computeSettlements (netsOf ms curr t) := rfl

theorem finalizeMS_owes (s : MS) :
    (finalizeMS s).owes = if s.net < 0 then round2 (-s.net) else 0 := rfl

theorem finalizeMS_due (s : MS) :
    (finalizeMS s).due = if 0 < s.net then round2 s.net else (0 : ℚ) := rfl

end InitBot

/-! ## C1: settlement conservation -/

/-- C1 (amended): for every analysis of `__init__.py`'s agent and every member
`m` whose summary is `s`, **provided `m` is not left on a leftover work list
when the two-pointer loop stops**, the total settlement amount paid by `m` is
within `0.01` of `s.owes` and the total received by `m` is within `0.01` of
`s.due`.  The unqualified claim is false (`C1_counterexample`): the loop can
stop with a creditor still on its work list, in which case the amounts
received fall short by more than `0.01`. -/
theorem C1_settlement_conservation (ms : List String) (curr t : String)
    (m : String) (s : InitBot.MS)
    (hmem : (m, s) ∈ (InitBot.analyze ms curr t).members)
    (hld : m ∉ ((InitBot.settleOut ms curr t).ld.map Prod.fst))
    (hlc : m ∉ ((InitBot.settleOut ms curr t).lc.map Prod.fst)) :
    |InitBot.sumFrom m (InitBot.analyze ms curr t).settlements - s.owes| ≤ 1/100 ∧
    |InitBot.sumTo m (InitBot.analyze ms curr t).settlements - s.due| ≤ 1/100 := by
  obtain ⟨s0, hp, hs⟩ := InitBot.members_mem hmem
  rw [InitBot.analyze_settlements]
  rw [InitBot.settleOut_def] at hld hlc ⊢
  have hmain := InitBot.computeSettlements_conservation (InitBot.netsOf ms curr t)
    (InitBot.netsOf_nodup ms curr t) m s0.net (InitBot.netsOf_mem hp) hld hlc
  rw [hs, InitBot.finalizeMS_owes, InitBot.finalizeMS_due]
  exact hmain

def c1Ms : List String := ["Alex", "Jamie", "Sam", "Omar"]

def c1Text : String :=
  "Alex paid 100 for Jamie, Sam and Omar\nAlex paid 100 for Jamie, Sam and Omar"

def c1AlexMS : InitBot.MS := ⟨200, 0, 200, 0, 200, 0⟩

/-- The unqualified C1 is false: after two payments of 100 split three ways
(each share rounding to 33.33), Alex is due `200` but the three debtors pay
`round(66.66̄) = 66.66` each, so Alex receives `199.98` — `0.02` short — and
the loop stops with Alex still carrying `0.02` on the creditor work list. -/
theorem C1_counterexample :
    ("Alex", c1AlexMS) ∈ (InitBot.analyze c1Ms "AED" c1Text).members ∧
    c1AlexMS.due = 200 ∧
    InitBot.sumTo "Alex" (InitBot.analyze c1Ms "AED" c1Text).settlements
      = qmk 19998 100 ∧
    (InitBot.settleOut c1Ms "AED" c1Text).lc = [("Alex", qmk 2 100)] ∧
    ¬ (|InitBot.sumTo "Alex" (InitBot.analyze c1Ms "AED" c1Text).settlements
          - c1AlexMS.due| ≤ 1/100) := by
  refine ⟨by decide, rfl, by decide, by decide, ?_⟩
  intro habs
  rw [show InitBot.sumTo "Alex" (InitBot.analyze c1Ms "AED" c1Text).settlements
      = qmk 19998 100 from by decide, qmk_eq] at habs
  rw [show c1AlexMS.due = 200 from rfl, abs_le] at habs
  have := habs.1
  norm_num at this

/-- Witness for C1 on a two-member analysis whose loop clears both work
lists. -/
theorem C1_settlement_conservation_witness :
    (("B", (⟨0, 10, -10, 10, 0, 0⟩ : InitBot.MS))
        ∈ (InitBot.analyze ["A", "B"] "AED" "A paid 10 for B").members ∧
      "B" ∉ ((InitBot.settleOut ["A", "B"] "AED" "A paid 10 for B").ld.map Prod.fst) ∧
      "B" ∉ ((InitBot.settleOut ["A", "B"] "AED" "A paid 10 for B").lc.map Prod.fst)) ∧
    (|InitBot.sumFrom "B" (InitBot.analyze ["A", "B"] "AED" "A paid 10 for B").settlements
        - (⟨0, 10, -10, 10, 0, 0⟩ : InitBot.MS).owes| ≤ 1/100 ∧
      |InitBot.sumTo "B" (InitBot.analyze ["A", "B"] "AED" "A paid 10 for B").settlements
        - (⟨0, 10, -10, 10, 0, 0⟩ : InitBot.MS).due| ≤ 1/100) :=
  ⟨⟨by decide, by decide, by decide⟩,
    C1_settlement_conservation ["A", "B"] "AED" "A paid 10 for B" "B"
      ⟨0, 10, -10, 10, 0, 0⟩ (by decide) (by decide) (by decide)⟩
